import Mathlib

/-!
# Seminal input features analysis: backward def-use walk

A shallow embedding of `src/part2/first_def_use_analysis.cpp`.

The program representation handed to the pass is a finite graph of values:
a function with `n` values is a map `Fin n → Value n`, and operands are
references `Fin n` into that map, so every operand pointer is valid, and the
graph may contain cycles and sharing.  The two mutable members of the analysis
object (`variables`, `exploredPoints`) are threaded explicitly as a `State`.
-/

namespace SeminalInputFeaturesAnalysis

/-- Record `Variable` of the analysis: a location name and a source line. -/
structure Variable where
  name : String
  line : Int
deriving DecidableEq, Repr

/-- What `CallInst::getCalledFunction` exposes of a resolved callee: its name
and whether it is an intrinsic. -/
structure CalledFunction where
  name : String
  isIntrinsic : Bool
deriving DecidableEq, Repr

/-- Dynamic kind of a value, as far as the `dyn_cast` dispatch of the analysis
can tell kinds apart.  `branchInst` carries the operand list of a branch
(`[dest]` when unconditional, `[cond, ifFalse, ifTrue]` when conditional);
`callInst` carries the result of `getCalledFunction` (`none` for an indirect
call) and the argument list; `otherInst` is any other instruction (compare,
cast, alloca, phi, ...); `constantInt` is an integer constant and `otherValue`
any other non-instruction (function argument, basic block, other constant). -/
inductive ValueKind (n : Nat) where
  | storeInst (valueOperand pointerOperand : Fin n)
  | loadInst (pointerOperand : Fin n)
  | binaryOperator (operands : List (Fin n))
  | callInst (calledFunction : Option CalledFunction) (args : List (Fin n))
  | branchInst (operands : List (Fin n))
  | otherInst (operands : List (Fin n))
  | constantInt
  | otherValue
deriving DecidableEq, Repr

/-- A value of the program: its textual name (`getName().str()`, empty for an
unnamed value), the number `int line = I->getDebugLoc().getLine()` evaluates
to for it (only read for instructions), and its kind. -/
structure Value (n : Nat) where
  name : String
  debugLine : Int
  kind : ValueKind n
deriving DecidableEq, Repr

/-- A function of the program: its `n` values. -/
structure Function (n : Nat) where
  value : Fin n → Value n

/-- A loop as the analysis sees it: the instructions of its header block, in
program order. -/
structure Loop (n : Nat) where
  header : List (Fin n)

/-- Loop metadata: the loops that `for (Loop *L : LI)` yields, in order. -/
abbrev LoopInfo (n : Nat) := List (Loop n)

/-- The table `variables`, an association list with the key first. -/
abbrev VariableTable := List (String × Variable)

/-- The mutable members of the analysis object: `varTable` is the member
`variables` (a reserved word here) and `exploredPoints` the visited set. -/
structure State where
  varTable : VariableTable
  exploredPoints : List String
deriving DecidableEq, Repr

/-- The state of a freshly constructed analysis object. -/
def State.fresh : State := ⟨[], []⟩

/-- Lookup `variables.find(name)`. -/
def VariableTable.find : VariableTable → String → Option Variable
  | [], _ => none
  | (k, x) :: rest, name => if k = name then some x else VariableTable.find rest name

/-- Assignment `variables[name] = var`: overwrite the entry or create it. -/
def VariableTable.upsert : VariableTable → String → Variable → VariableTable
  | [], name, var => [(name, var)]
  | (k, x) :: rest, name, var =>
    if k = name then (k, var) :: rest else (k, x) :: VariableTable.upsert rest name var

/-- Assignment `variables[name].line = line` on an entry that exists. -/
def VariableTable.setLine : VariableTable → String → Int → VariableTable
  | [], _, _ => []
  | (k, x) :: rest, name, line =>
    if k = name then (k, { x with line := line }) :: rest
    else (k, x) :: VariableTable.setLine rest name line

/-- The keys of the table. -/
def VariableTable.keys (t : VariableTable) : List String := t.map Prod.fst

/-- Test `name.find(pat) != std::string::npos` on character lists. -/
def containsChars (pat : List Char) : List Char → Bool
  | [] => pat.isEmpty
  | c :: cs => pat.isPrefixOf (c :: cs) || containsChars pat cs

/-- Test `name.find("llvm.") != std::string::npos`. -/
def containsLlvmDot (name : String) : Bool :=
  containsChars "llvm.".data name.data

deriving instance DecidableEq for Except

/-- Ways a walk can end without a state.  `nullCallee`: the call case evaluates
`calledFunction->isIntrinsic()` on the null pointer `getCalledFunction` returns
for an indirect call.  `argOutOfRange`: the call case evaluates
`CI->getArgOperand(0)` on a call that has no argument.  `outOfFuel`: the
recursion budget of the embedding is used up (never the case at the working
budget, see `defUseAnalysis_terminates`). -/
inductive Fault where
  | nullCallee
  | argOutOfRange
  | outOfFuel
deriving DecidableEq, Repr

/-- The walk `defUseAnalysis(v, F)` with a recursion budget: each nested call
consumes one unit. -/
def defUseAnalysisFuel {n : Nat} (F : Function n) : Nat → Fin n → State → Except Fault State
  | 0, _, _ => .error .outOfFuel
  | fuel + 1, v, s =>
    if (F.value v).name ∈ s.exploredPoints then .ok s
    else
      let s1 : State := { s with exploredPoints := s.exploredPoints.insert (F.value v).name }
      match (F.value v).kind with
      | .storeInst valueOperand pointerOperand =>
        match (F.value valueOperand).kind with
        | .constantInt =>
          let name := (F.value pointerOperand).name
          .ok { s1 with varTable := s1.varTable.upsert name ⟨name, (F.value v).debugLine⟩ }
        | _ => .ok s1
      | .loadInst pointerOperand =>
        let name := (F.value pointerOperand).name
        if (s1.varTable.find name).isSome then
          .ok { s1 with varTable := s1.varTable.setLine name (F.value v).debugLine }
        else .ok s1
      | .binaryOperator operands =>
        operands.foldlM (fun st op => defUseAnalysisFuel F fuel op st) s1
      | .callInst calledFunction args =>
        match calledFunction with
        | none => .error .nullCallee
        | some callee =>
          if callee.isIntrinsic then
            if containsLlvmDot callee.name then
              match args with
              | [] => .error .argOutOfRange
              | arg0 :: _ =>
                let varName := (F.value arg0).name
                .ok { s1 with
                  varTable := s1.varTable.upsert varName ⟨varName, (F.value v).debugLine⟩ }
            else .ok s1
          else .ok s1
      | _ => .ok s1

/-- The walk `defUseAnalysis(v, F)`: the budget `n + 1` exceeds the number of
distinct names of the function, which bounds the nesting depth. -/
def defUseAnalysis {n : Nat} (F : Function n) (v : Fin n) (s : State) : Except Fault State :=
  defUseAnalysisFuel F (n + 1) v s

/-- Test `BI->isConditional()`: a branch is conditional when it has three
operands. -/
def isConditional {n : Nat} (operands : List (Fin n)) : Bool := operands.length == 3

/-- The body of the instruction loop of `analyzeLoops` for one instruction `I`
of a header. -/
def analyzeInstruction {n : Nat} (F : Function n) (s : State) (I : Fin n) : Except Fault State :=
  match (F.value I).kind with
  | .branchInst operands =>
    if isConditional operands then operands.foldlM (fun st op => defUseAnalysis F op st) s
    else .ok s
  | _ => .ok s

/-- The driver `analyzeLoops(LI, F)`. -/
def analyzeLoops {n : Nat} (LI : LoopInfo n) (F : Function n) (s : State) : Except Fault State :=
  LI.foldlM (fun st L => L.header.foldlM (analyzeInstruction F) st) s

/-- The entry point `run(F, LI)`. -/
def run {n : Nat} (F : Function n) (LI : LoopInfo n) (s : State) : Except Fault State :=
  analyzeLoops LI F s

/-- Number of values of the function whose name is not in the visited set. -/
def unexplored {n : Nat} (F : Function n) (e : List String) : Nat :=
  (List.finRange n).countP (fun i => decide ((F.value i).name ∉ e))

/-- Kinds whose dispatch case can write a table entry or fault. -/
def ValueKind.isStoreOrCall {n : Nat} : ValueKind n → Bool
  | .storeInst _ _ => true
  | .callInst _ _ => true
  | _ => false

/-- The operands the walk recurses into: those of a BinaryOperator. -/
def ValueKind.recursedOperands {n : Nat} : ValueKind n → List (Fin n)
  | .binaryOperator operands => operands
  | _ => []

/-- The operands the driver hands to the walk for a header instruction: those
of a conditional branch. -/
def ValueKind.driverOperands {n : Nat} : ValueKind n → List (Fin n)
  | .branchInst operands => if isConditional operands then operands else []
  | _ => []

/-- Kinds on which the dispatch of the walk faults: a Call without resolved
callee, and a Call without arguments to a recognised intrinsic. -/
def ValueKind.faultsWhenWalked {n : Nat} : ValueKind n → Bool
  | .callInst none _ => true
  | .callInst (some callee) [] => callee.isIntrinsic && containsLlvmDot callee.name
  | _ => false

/-- Every entry of the table holds a `Variable` whose `name` is its key. -/
def VariableTable.consistent (t : VariableTable) : Prop := ∀ e ∈ t, e.2.name = e.1

/-- A conditional branch: the only kind of header instruction the driver acts on. -/
def ValueKind.isConditionalBranch {n : Nat} : ValueKind n → Bool
  | .branchInst operands => isConditional operands
  | _ => false

/-- Values at which the traversal stops without touching the table: a
non-instruction, an instruction that is no Store, Load, BinaryOperator or
Call, a Store whose value operand is no integer constant, and a Call to a
resolved callee that is no intrinsic. -/
def isDeadEnd {n : Nat} (F : Function n) (v : Fin n) : Bool :=
  match (F.value v).kind with
  | .storeInst valueOperand _ =>
    match (F.value valueOperand).kind with
    | .constantInt => false
    | _ => true
  | .loadInst _ => false
  | .binaryOperator _ => false
  | .callInst (some callee) _ => !callee.isIntrinsic
  | .callInst none _ => false
  | _ => true

/-- The kinds the walk dispatches on: Store, Load, BinaryOperator and Call. -/
def ValueKind.isDispatched {n : Nat} : ValueKind n → Bool
  | .storeInst _ _ => true
  | .loadInst _ => true
  | .binaryOperator _ => true
  | .callInst _ _ => true
  | _ => false

/-! ## Concrete programs used as instances -/

/-- The scenario of a counting loop: `store 0, %i` at line 5, `%v = load %i` at
line 8, `%t = binop %v, 0`, `%c = binop %t, 0`, and the header branch
`br %c, exit, body`. -/
def scenarioFn : Function 9 := ⟨![
  ⟨"i", 3, .otherInst []⟩,
  ⟨"", 0, .constantInt⟩,
  ⟨"", 5, .storeInst 1 0⟩,
  ⟨"v", 8, .loadInst 0⟩,
  ⟨"t", 9, .binaryOperator [3, 1]⟩,
  ⟨"c", 9, .binaryOperator [4, 1]⟩,
  ⟨"", 9, .branchInst [5, 7, 8]⟩,
  ⟨"exit", 0, .otherValue⟩,
  ⟨"body", 0, .otherValue⟩]⟩

/-- The loop of `scenarioFn`: its header holds the load, the two
BinaryOperators and the branch. -/
def scenarioLI : LoopInfo 9 := [⟨[3, 4, 5, 6]⟩]

/-- A constant store `store 0, %i` at line 5: the location, the constant and
the store, which like every store and every constant has no name. -/
def storeFn : Function 3 := ⟨![
  ⟨"i", 3, .otherInst []⟩,
  ⟨"", 0, .constantInt⟩,
  ⟨"", 5, .storeInst 1 0⟩]⟩

/-- A load `%v = load %i` at line 8. -/
def loadFn : Function 2 := ⟨![
  ⟨"i", 3, .otherInst []⟩,
  ⟨"v", 8, .loadInst 0⟩]⟩

/-- Two loads of a local `tmp` that is never stored. -/
def tmpFn : Function 3 := ⟨![
  ⟨"tmp", 2, .otherInst []⟩,
  ⟨"a", 4, .loadInst 0⟩,
  ⟨"b", 6, .loadInst 0⟩]⟩

/-- A call `llvm.memset(%buf, ...)` at line 12. -/
def memsetFn : Function 3 := ⟨![
  ⟨"buf", 10, .otherInst []⟩,
  ⟨"", 0, .constantInt⟩,
  ⟨"", 12, .callInst (some ⟨"llvm.memset.p0.i64", true⟩) [0, 1, 1, 1]⟩]⟩

/-- Two BinaryOperators that are operands of each other, one also of itself. -/
def cyclicFn : Function 3 := ⟨![
  ⟨"a", 1, .binaryOperator [1, 2]⟩,
  ⟨"b", 2, .binaryOperator [0, 1]⟩,
  ⟨"", 0, .constantInt⟩]⟩

/-- An indirect call `%r = call %fp()` at line 7, used by a BinaryOperator. -/
def indirectCallFn : Function 3 := ⟨![
  ⟨"fp", 0, .otherValue⟩,
  ⟨"r", 7, .callInst none []⟩,
  ⟨"sum", 8, .binaryOperator [1, 1]⟩]⟩

/-- An intrinsic call without arguments, `%t = call @llvm.readcyclecounter()`,
used by a BinaryOperator. -/
def noArgIntrinsicFn : Function 2 := ⟨![
  ⟨"t", 7, .callInst (some ⟨"llvm.readcyclecounter", true⟩) []⟩,
  ⟨"sum", 8, .binaryOperator [0, 0]⟩]⟩

/-- A loop whose header branches on a comparison `%cmp = icmp %a, %n` of a
loaded value with a function argument. -/
def compareFn : Function 7 := ⟨![
  ⟨"p", 2, .otherInst []⟩,
  ⟨"a", 4, .loadInst 0⟩,
  ⟨"n", 0, .otherValue⟩,
  ⟨"cmp", 4, .otherInst [1, 2]⟩,
  ⟨"", 4, .branchInst [3, 5, 6]⟩,
  ⟨"exit", 0, .otherValue⟩,
  ⟨"body", 0, .otherValue⟩]⟩

/-- The loop of `compareFn`. -/
def compareLI : LoopInfo 7 := [⟨[1, 3, 4]⟩]

/-- The expression `c = a + b` with `b` loaded from `i` at line 8, and a
condition `%cond = binop %c, 0` that depends on `c`. -/
def transitiveFn : Function 6 := ⟨![
  ⟨"i", 3, .otherInst []⟩,
  ⟨"a", 0, .otherValue⟩,
  ⟨"b", 8, .loadInst 0⟩,
  ⟨"c", 9, .binaryOperator [1, 2]⟩,
  ⟨"cond", 9, .binaryOperator [3, 5]⟩,
  ⟨"", 0, .constantInt⟩]⟩

/-- A loop whose header ends in an unconditional branch `br body`. -/
def unconditionalFn : Function 4 := ⟨![
  ⟨"i", 3, .otherInst []⟩,
  ⟨"v", 8, .loadInst 0⟩,
  ⟨"", 9, .branchInst [3]⟩,
  ⟨"body", 0, .otherValue⟩]⟩

/-- The loop of `unconditionalFn`. -/
def unconditionalLI : LoopInfo 4 := [⟨[1, 2]⟩]

/-- Dead ends of each sort: a function argument `%n`, a comparison, a store of
a non-constant, a call to an ordinary function, and a basic block. -/
def deadEndFn : Function 7 := ⟨![
  ⟨"i", 3, .otherInst []⟩,
  ⟨"n", 0, .otherValue⟩,
  ⟨"cmp", 4, .otherInst [1, 1]⟩,
  ⟨"", 5, .storeInst 1 0⟩,
  ⟨"r", 6, .callInst (some ⟨"compute", false⟩) [0, 1]⟩,
  ⟨"body", 0, .otherValue⟩,
  ⟨"", 0, .constantInt⟩]⟩

/-- Unnamed values of each dispatched kind next to an unnamed constant: a
constant store to `i`, a load of `i`, a BinaryOperator and an intrinsic call
on `i`. -/
def conflateFn : Function 6 := ⟨![
  ⟨"i", 3, .otherInst []⟩,
  ⟨"", 0, .constantInt⟩,
  ⟨"", 5, .storeInst 1 0⟩,
  ⟨"", 8, .loadInst 0⟩,
  ⟨"", 9, .binaryOperator [3, 1]⟩,
  ⟨"", 12, .callInst (some ⟨"llvm.memset.p0.i64", true⟩) [0, 1, 1, 1]⟩]⟩

/-- A loop whose header branches on a comparison `%cmp = icmp %v, %k`, where
`%v` is loaded from `i`, `%k` comes from an intrinsic call on `i`, and `i` is
stored with a constant before. -/
def gapFn : Function 9 := ⟨![
  ⟨"i", 3, .otherInst []⟩,
  ⟨"", 0, .constantInt⟩,
  ⟨"", 5, .storeInst 1 0⟩,
  ⟨"k", 6, .callInst (some ⟨"llvm.objectsize.i64.p0", true⟩) [0, 1, 1, 1]⟩,
  ⟨"v", 8, .loadInst 0⟩,
  ⟨"cmp", 9, .otherInst [4, 3]⟩,
  ⟨"", 9, .branchInst [5, 7, 8]⟩,
  ⟨"exit", 0, .otherValue⟩,
  ⟨"body", 0, .otherValue⟩]⟩

/-- The loop of `gapFn`. -/
def gapLI : LoopInfo 9 := [⟨[3, 4, 5, 6]⟩]

/-- A BinaryOperator `%x` over a load `%l` of `i` at line 8 and an intrinsic
call `%k` on `i` at line 6, with the operand list left open, and a loop
header branching on `%x`. -/
def orderFn (operands : List (Fin 7)) : Function 7 := ⟨![
  ⟨"i", 3, .otherInst []⟩,
  ⟨"l", 8, .loadInst 0⟩,
  ⟨"k", 6, .callInst (some ⟨"llvm.objectsize.i64.p0", true⟩) [0, 4, 4, 4]⟩,
  ⟨"x", 9, .binaryOperator operands⟩,
  ⟨"", 0, .constantInt⟩,
  ⟨"", 9, .branchInst [3, 6, 6]⟩,
  ⟨"bb", 0, .otherValue⟩]⟩

/-- The loop of `orderFn`. -/
def orderLI : LoopInfo 7 := [⟨[1, 2, 3, 5]⟩]

/-! ## Auxiliary lemmas: folds in the error monad -/

theorem foldlM_cons_ok {α σ ε : Type} (f : σ → α → Except ε σ) (a : α) (l : List α) (s s1 : σ)
    (h : f s a = .ok s1) : (a :: l).foldlM f s = l.foldlM f s1 := by
  simp only [List.foldlM_cons, h]
  rfl

theorem foldlM_cons_error {α σ ε : Type} (f : σ → α → Except ε σ) (a : α) (l : List α) (s : σ)
    (e : ε) (h : f s a = .error e) : (a :: l).foldlM f s = .error e := by
  simp only [List.foldlM_cons, h]
  rfl

theorem foldlM_nil_eq {α σ ε : Type} (f : σ → α → Except ε σ) (s : σ) :
    ([] : List α).foldlM f s = .ok s := rfl

/-- A relation that is reflexive, transitive and established by every
successful step holds between the start and the result of a successful fold. -/
theorem foldlM_ok_rel {α σ ε : Type} (f : σ → α → Except ε σ) (R : σ → σ → Prop)
    (hrefl : ∀ s, R s s) (htrans : ∀ a b c, R a b → R b c → R a c) (l : List α)
    (hstep : ∀ s a s1, a ∈ l → f s a = .ok s1 → R s s1) :
    ∀ s s1, l.foldlM f s = .ok s1 → R s s1 := by
  induction l with
  | nil =>
    intro s s1 h
    rw [foldlM_nil_eq] at h
    cases h
    exact hrefl s
  | cons a l ih =>
    intro s s1 h
    cases hfa : f s a with
    | error e =>
      rw [foldlM_cons_error f a l s e hfa] at h
      cases h
    | ok s2 =>
      rw [foldlM_cons_ok f a l s s2 hfa] at h
      exact htrans _ _ _ (hstep s a s2 (List.mem_cons_self a l) hfa)
        (ih (fun s a s1 ha => hstep s a s1 (List.mem_cons_of_mem _ ha)) s2 s1 h)

/-- Two step functions that agree on every state satisfying a predicate the
steps preserve give the same fold from such a state. -/
theorem foldlM_congr_inv {α σ ε : Type} (f g : σ → α → Except ε σ) (Inv : σ → Prop)
    (l : List α)
    (hfg : ∀ s a, a ∈ l → Inv s → f s a = g s a)
    (hpres : ∀ s a s1, a ∈ l → Inv s → f s a = .ok s1 → Inv s1) :
    ∀ s, Inv s → l.foldlM f s = l.foldlM g s := by
  induction l with
  | nil => intro s _; rfl
  | cons a l ih =>
    intro s hs
    have hfa := hfg s a (List.mem_cons_self a l) hs
    cases hf : f s a with
    | error e =>
      rw [foldlM_cons_error f a l s e hf, foldlM_cons_error g a l s e (hfa ▸ hf)]
    | ok s2 =>
      rw [foldlM_cons_ok f a l s s2 hf, foldlM_cons_ok g a l s s2 (hfa ▸ hf)]
      exact ih (fun s a ha => hfg s a (List.mem_cons_of_mem _ ha))
        (fun s a s1 ha => hpres s a s1 (List.mem_cons_of_mem _ ha)) s2
        (hpres s a s2 (List.mem_cons_self a l) hs hf)

/-- An error of a fold is the error of one of its steps, taken at a state
satisfying any predicate the steps preserve. -/
theorem foldlM_error_inv {α σ ε : Type} (f : σ → α → Except ε σ) (Inv : σ → Prop)
    (l : List α)
    (hpres : ∀ s a s1, a ∈ l → Inv s → f s a = .ok s1 → Inv s1) :
    ∀ s e, Inv s → l.foldlM f s = .error e → ∃ st a, a ∈ l ∧ Inv st ∧ f st a = .error e := by
  induction l with
  | nil =>
    intro s e _ h
    rw [foldlM_nil_eq] at h
    cases h
  | cons a l ih =>
    intro s e hs h
    cases hf : f s a with
    | error e1 =>
      rw [foldlM_cons_error f a l s e1 hf] at h
      cases h
      exact ⟨s, a, List.mem_cons_self a l, hs, hf⟩
    | ok s2 =>
      rw [foldlM_cons_ok f a l s s2 hf] at h
      obtain ⟨st, b, hb, hst, hfb⟩ := ih (fun s a s1 ha => hpres s a s1 (List.mem_cons_of_mem _ ha))
        s2 e (hpres s a s2 (List.mem_cons_self a l) hs hf) h
      exact ⟨st, b, List.mem_cons_of_mem _ hb, hst, hfb⟩

/-- A fold succeeds, with a predicate holding at the end, when every step
succeeds from a state satisfying the predicate and keeps it. -/
theorem foldlM_ok_of_inv {α σ ε : Type} (f : σ → α → Except ε σ) (Inv : σ → Prop)
    (l : List α)
    (hstep : ∀ s a, a ∈ l → Inv s → ∃ s1, f s a = .ok s1 ∧ Inv s1) :
    ∀ s, Inv s → ∃ s1, l.foldlM f s = .ok s1 ∧ Inv s1 := by
  induction l with
  | nil => intro s hs; exact ⟨s, rfl, hs⟩
  | cons a l ih =>
    intro s hs
    obtain ⟨s2, hf, hs2⟩ := hstep s a (List.mem_cons_self a l) hs
    obtain ⟨s3, hfold, hs3⟩ := ih (fun s a ha => hstep s a (List.mem_cons_of_mem _ ha)) s2 hs2
    exact ⟨s3, by rw [foldlM_cons_ok f a l s s2 hf]; exact hfold, hs3⟩

/-- In a successful fold every element was stepped, from a state related to
the start, to a state related to the result. -/
theorem foldlM_ok_mem {α σ ε : Type} (f : σ → α → Except ε σ) (R : σ → σ → Prop)
    (hrefl : ∀ s, R s s) (htrans : ∀ a b c, R a b → R b c → R a c) (l : List α)
    (hstep : ∀ s a s1, a ∈ l → f s a = .ok s1 → R s s1) :
    ∀ s s1, l.foldlM f s = .ok s1 →
      ∀ a ∈ l, ∃ st st1, R s st ∧ f st a = .ok st1 ∧ R st1 s1 := by
  induction l with
  | nil => intro s s1 _ a ha; cases ha
  | cons b l ih =>
    intro s s1 h a ha
    cases hfb : f s b with
    | error e =>
      rw [foldlM_cons_error f b l s e hfb] at h
      cases h
    | ok s2 =>
      rw [foldlM_cons_ok f b l s s2 hfb] at h
      have hstep1 : ∀ s a s1, a ∈ l → f s a = .ok s1 → R s s1 :=
        fun s a s1 ha => hstep s a s1 (List.mem_cons_of_mem _ ha)
      rcases List.mem_cons.1 ha with rfl | hal
      · exact ⟨s, s2, hrefl s, hfb, foldlM_ok_rel f R hrefl htrans l hstep1 s2 s1 h⟩
      · obtain ⟨st, st1, h1, h2, h3⟩ := ih hstep1 s2 s1 h a hal
        exact ⟨st, st1, htrans _ _ _ (hstep s b s2 (List.mem_cons_self b l) hfb) h1, h2, h3⟩

/-! ## Auxiliary lemmas: the variables table -/

theorem find_upsert_self (t : VariableTable) (name : String) (var : Variable) :
    (t.upsert name var).find name = some var := by
  induction t with
  | nil => simp [VariableTable.upsert, VariableTable.find]
  | cons e rest ih =>
    obtain ⟨k, x⟩ := e
    by_cases hk : k = name
    · simp [VariableTable.upsert, VariableTable.find, hk]
    · simp [VariableTable.upsert, VariableTable.find, hk, ih]

theorem find_upsert_ne (t : VariableTable) (name k1 : String) (var : Variable) (h : k1 ≠ name) :
    (t.upsert name var).find k1 = t.find k1 := by
  induction t with
  | nil => simp [VariableTable.upsert, VariableTable.find, Ne.symm h]
  | cons e rest ih =>
    obtain ⟨k, x⟩ := e
    by_cases hk : k = name
    · subst hk
      simp [VariableTable.upsert, VariableTable.find, Ne.symm h]
    · by_cases hk1 : k = k1
      · subst hk1
        simp [VariableTable.upsert, VariableTable.find, hk]
      · simp [VariableTable.upsert, VariableTable.find, hk, hk1, ih]

theorem find_setLine_self (t : VariableTable) (name : String) (line : Int) (x : Variable)
    (h : t.find name = some x) :
    (t.setLine name line).find name = some { x with line := line } := by
  induction t with
  | nil => simp [VariableTable.find] at h
  | cons e rest ih =>
    obtain ⟨k, y⟩ := e
    by_cases hk : k = name
    · simp only [VariableTable.find, hk, if_true, Option.some.injEq] at h
      subst h
      simp [VariableTable.setLine, VariableTable.find, hk]
    · simp only [VariableTable.find, hk, if_false] at h
      simp [VariableTable.setLine, VariableTable.find, hk, ih h]

theorem find_setLine_ne (t : VariableTable) (name k1 : String) (line : Int) (h : k1 ≠ name) :
    (t.setLine name line).find k1 = t.find k1 := by
  induction t with
  | nil => simp [VariableTable.setLine, VariableTable.find]
  | cons e rest ih =>
    obtain ⟨k, x⟩ := e
    by_cases hk : k = name
    · subst hk
      simp [VariableTable.setLine, VariableTable.find, Ne.symm h]
    · by_cases hk1 : k = k1
      · subst hk1
        simp [VariableTable.setLine, VariableTable.find, hk]
      · simp [VariableTable.setLine, VariableTable.find, hk, hk1, ih]

theorem keys_setLine (t : VariableTable) (name : String) (line : Int) :
    (t.setLine name line).keys = t.keys := by
  induction t with
  | nil => rfl
  | cons e rest ih =>
    obtain ⟨k, x⟩ := e
    by_cases hk : k = name
    · simp [VariableTable.setLine, VariableTable.keys, hk]
    · simp only [VariableTable.keys] at ih
      simp [VariableTable.setLine, VariableTable.keys, hk, ih]

theorem find_isSome_iff_mem_keys (t : VariableTable) (name : String) :
    (t.find name).isSome = true ↔ name ∈ t.keys := by
  induction t with
  | nil => simp [VariableTable.find, VariableTable.keys]
  | cons e rest ih =>
    obtain ⟨k, x⟩ := e
    by_cases hk : k = name
    · simp [VariableTable.find, VariableTable.keys, hk]
    · simp only [VariableTable.keys] at ih
      simp [VariableTable.find, VariableTable.keys, hk, ih, Ne.symm hk]

/-! ## Auxiliary lemmas: the visited set and the recursion budget -/

/-- With budget left, a walk of a value whose name is in `exploredPoints` returns
the state as it is. -/
theorem defUseAnalysisFuel_explored {n : Nat} (F : Function n) (fuel : Nat) (v : Fin n)
    (s : State) (h : (F.value v).name ∈ s.exploredPoints) :
    defUseAnalysisFuel F (fuel + 1) v s = .ok s := by
  simp only [defUseAnalysisFuel, h, if_true]

/-- A successful walk only adds to `exploredPoints`, and the walked value's
name is in it afterwards. -/
theorem defUseAnalysisFuel_mono {n : Nat} (F : Function n) :
    ∀ (fuel : Nat) (v : Fin n) (s s1 : State), defUseAnalysisFuel F fuel v s = .ok s1 →
      s.exploredPoints ⊆ s1.exploredPoints ∧ (F.value v).name ∈ s1.exploredPoints := by
  intro fuel
  induction fuel with
  | zero => intro v s s1 h; simp [defUseAnalysisFuel] at h
  | succ fuel ih =>
    intro v s s1 h
    by_cases hex : (F.value v).name ∈ s.exploredPoints
    · rw [defUseAnalysisFuel_explored F fuel v s hex] at h
      cases h
      exact ⟨fun _ hx => hx, hex⟩
    · have hsub : s.exploredPoints ⊆ s.exploredPoints.insert (F.value v).name :=
        fun x hx => List.mem_insert_of_mem hx
      have hmem : (F.value v).name ∈ s.exploredPoints.insert (F.value v).name :=
        List.mem_insert_self _ _
      simp only [defUseAnalysisFuel, hex, if_false] at h
      split at h
      · split at h <;> cases h <;> exact ⟨hsub, hmem⟩
      · split at h <;> cases h <;> exact ⟨hsub, hmem⟩
      · have hR := foldlM_ok_rel (fun st op => defUseAnalysisFuel F fuel op st)
          (fun a b => a.exploredPoints ⊆ b.exploredPoints) (fun _ _ hx => hx)
          (fun a b c hab hbc x hx => hbc (hab hx)) _
          (fun st op st1 _ hst => (ih op st st1 hst).1) _ _ h
        exact ⟨fun x hx => hR (hsub hx), hR hmem⟩
      · split at h
        · cases h
        · split at h
          · split at h
            · split at h
              · cases h
              · cases h; exact ⟨hsub, hmem⟩
            · cases h; exact ⟨hsub, hmem⟩
          · cases h; exact ⟨hsub, hmem⟩
      · cases h; exact ⟨hsub, hmem⟩

theorem countP_lt_of_imp {α : Type} (p q : α → Bool) :
    ∀ (l : List α), (∀ x ∈ l, p x = true → q x = true) →
      (∃ x ∈ l, q x = true ∧ p x = false) → l.countP p < l.countP q := by
  intro l
  induction l with
  | nil => intro _ h; obtain ⟨x, hx, _⟩ := h; cases hx
  | cons a l ih =>
    intro himp hex
    have hle : l.countP p ≤ l.countP q :=
      List.countP_mono_left (fun x hx => himp x (List.mem_cons_of_mem _ hx))
    obtain ⟨x, hx, hqx, hpx⟩ := hex
    rw [List.countP_cons, List.countP_cons]
    rcases List.mem_cons.1 hx with rfl | hxl
    · simp only [hqx, hpx, if_true]
      simp
      omega
    · have hlt := ih (fun y hy => himp y (List.mem_cons_of_mem _ hy)) ⟨x, hxl, hqx, hpx⟩
      have ha := himp a (List.mem_cons_self a l)
      cases hpa : p a
      · cases hqa : q a <;> simp <;> omega
      · simp [ha hpa]; omega

theorem unexplored_le {n : Nat} (F : Function n) (e : List String) : unexplored F e ≤ n := by
  unfold unexplored
  calc (List.finRange n).countP _ ≤ (List.finRange n).length := List.countP_le_length _
    _ = n := List.length_finRange n

theorem unexplored_mono {n : Nat} (F : Function n) (e e1 : List String) (h : e ⊆ e1) :
    unexplored F e1 ≤ unexplored F e := by
  unfold unexplored
  apply List.countP_mono_left
  intro i _ hi
  simp only [decide_eq_true_eq] at hi ⊢
  exact fun hmem => hi (h hmem)

theorem unexplored_insert_lt {n : Nat} (F : Function n) (e : List String) (v : Fin n)
    (h : (F.value v).name ∉ e) :
    unexplored F (e.insert (F.value v).name) < unexplored F e := by
  unfold unexplored
  apply countP_lt_of_imp
  · intro i _ hi
    simp only [decide_eq_true_eq] at hi ⊢
    exact fun hmem => hi (List.mem_insert_of_mem hmem)
  · refine ⟨v, List.mem_finRange v, ?_, ?_⟩
    · simpa using h
    · simp

/-- Once the budget exceeds the number of unexplored values, a larger budget
gives the same outcome. -/
theorem defUseAnalysisFuel_stable {n : Nat} (F : Function n) :
    ∀ (fuel : Nat) (v : Fin n) (s : State), unexplored F s.exploredPoints < fuel →
      ∀ fuel1, fuel ≤ fuel1 → defUseAnalysisFuel F fuel1 v s = defUseAnalysisFuel F fuel v s := by
  intro fuel
  induction fuel with
  | zero => intro v s h; omega
  | succ k ih =>
    intro v s hlt fuel1 hle
    obtain ⟨k1, rfl⟩ : ∃ k1, fuel1 = k1 + 1 := ⟨fuel1 - 1, by omega⟩
    have hk : k ≤ k1 := by omega
    by_cases hex : (F.value v).name ∈ s.exploredPoints
    · rw [defUseAnalysisFuel_explored F k1 v s hex, defUseAnalysisFuel_explored F k v s hex]
    · have hdec := unexplored_insert_lt F s.exploredPoints v hex
      simp only [defUseAnalysisFuel, hex, if_false]
      cases hkind : (F.value v).kind with
      | binaryOperator operands =>
        simp only []
        apply foldlM_congr_inv _ _ (fun st => unexplored F st.exploredPoints < k)
        · intro st op _ hst
          exact ih op st hst k1 hk
        · intro st op st1 _ hst hok
          have hmono := (defUseAnalysisFuel_mono F k1 op st st1 hok).1
          exact lt_of_le_of_lt (unexplored_mono F _ _ hmono) hst
        · show unexplored F (s.exploredPoints.insert (F.value v).name) < k
          omega
      | _ => rfl

/-- A budget that exceeds the number of unexplored values is never exhausted. -/
theorem defUseAnalysisFuel_enough {n : Nat} (F : Function n) :
    ∀ (fuel : Nat) (v : Fin n) (s : State), unexplored F s.exploredPoints < fuel →
      defUseAnalysisFuel F fuel v s ≠ .error .outOfFuel := by
  intro fuel
  induction fuel with
  | zero => intro v s h; omega
  | succ k ih =>
    intro v s hlt
    by_cases hex : (F.value v).name ∈ s.exploredPoints
    · rw [defUseAnalysisFuel_explored F k v s hex]
      exact fun h => by cases h
    · have hdec := unexplored_insert_lt F s.exploredPoints v hex
      simp only [defUseAnalysisFuel, hex, if_false]
      cases hkind : (F.value v).kind with
      | binaryOperator operands =>
        simp only []
        intro herr
        obtain ⟨st, op, _, hst, hbad⟩ := foldlM_error_inv
          (fun st op => defUseAnalysisFuel F k op st)
          (fun st => unexplored F st.exploredPoints < k) operands
          (fun st op st1 _ hst hok =>
            lt_of_le_of_lt (unexplored_mono F _ _ (defUseAnalysisFuel_mono F k op st st1 hok).1) hst)
          _ _ (show unexplored F (s.exploredPoints.insert (F.value v).name) < k by omega) herr
        exact ih op st hst hbad
      | storeInst a b =>
        simp only []
        split <;> exact fun h => by cases h
      | loadInst a =>
        simp only []
        split <;> exact fun h => by cases h
      | callInst c args =>
        simp only []
        intro h
        split at h
        · cases h
        · split at h
          · split at h
            · split at h <;> cases h
            · cases h
          · cases h
      | _ => exact fun h => by cases h

/-- A walk of a value whose name is in `exploredPoints` returns the state as it is. -/
theorem defUseAnalysis_explored {n : Nat} (F : Function n) (v : Fin n) (s : State)
    (h : (F.value v).name ∈ s.exploredPoints) : defUseAnalysis F v s = .ok s :=
  defUseAnalysisFuel_explored F n v s h

/-- A successful walk only adds to `exploredPoints` and leaves the walked name in it. -/
theorem defUseAnalysis_mono {n : Nat} (F : Function n) (v : Fin n) (s s1 : State)
    (h : defUseAnalysis F v s = .ok s1) :
    s.exploredPoints ⊆ s1.exploredPoints ∧ (F.value v).name ∈ s1.exploredPoints :=
  defUseAnalysisFuel_mono F (n + 1) v s s1 h

/-- The walk at its working budget never exhausts it. -/
theorem defUseAnalysis_ne_outOfFuel {n : Nat} (F : Function n) (v : Fin n) (s : State) :
    defUseAnalysis F v s ≠ .error .outOfFuel :=
  defUseAnalysisFuel_enough F (n + 1) v s (Nat.lt_succ_of_le (unexplored_le F _))

/-! ## Auxiliary lemmas: the driver -/

/-- Analysing one header instruction only adds to `exploredPoints`. -/
theorem analyzeInstruction_mono {n : Nat} (F : Function n) (s s1 : State) (I : Fin n)
    (h : analyzeInstruction F s I = .ok s1) : s.exploredPoints ⊆ s1.exploredPoints := by
  unfold analyzeInstruction at h
  split at h
  · split at h
    · exact foldlM_ok_rel (fun st op => defUseAnalysis F op st)
        (fun a b => a.exploredPoints ⊆ b.exploredPoints) (fun _ _ hx => hx)
        (fun a b c hab hbc x hx => hbc (hab hx)) _
        (fun st op st1 _ hst => (defUseAnalysis_mono F op st st1 hst).1) _ _ h
    · cases h; exact fun _ hx => hx
  · cases h; exact fun _ hx => hx

/-- Analysing the instructions of a header only adds to `exploredPoints`. -/
theorem header_mono {n : Nat} (F : Function n) (insts : List (Fin n)) (s s1 : State)
    (h : insts.foldlM (analyzeInstruction F) s = .ok s1) :
    s.exploredPoints ⊆ s1.exploredPoints :=
  foldlM_ok_rel (analyzeInstruction F)
    (fun a b => a.exploredPoints ⊆ b.exploredPoints) (fun _ _ hx => hx)
    (fun _ _ _ hab hbc _ hx => hbc (hab hx)) _
    (fun st I st1 _ hst => analyzeInstruction_mono F st st1 I hst) _ _ h

/-- Analysing one header instruction never exhausts the budget. -/
theorem analyzeInstruction_ne_outOfFuel {n : Nat} (F : Function n) (s : State) (I : Fin n) :
    analyzeInstruction F s I ≠ .error .outOfFuel := by
  unfold analyzeInstruction
  intro h
  split at h
  · split at h
    · obtain ⟨st, op, _, _, hbad⟩ := foldlM_error_inv (fun st op => defUseAnalysis F op st)
        (fun _ => True) _ (fun _ _ _ _ _ _ => trivial) _ _ trivial h
      exact defUseAnalysis_ne_outOfFuel F op st hbad
    · cases h
  · cases h

/-- A run never exhausts the budget. -/
theorem run_ne_outOfFuel {n : Nat} (F : Function n) (LI : LoopInfo n) (s : State) :
    run F LI s ≠ .error .outOfFuel := by
  intro h
  obtain ⟨st, L, _, _, hbad⟩ := foldlM_error_inv
    (fun st (L : Loop n) => L.header.foldlM (analyzeInstruction F) st)
    (fun _ => True) LI (fun _ _ _ _ _ _ => trivial) s _ trivial h
  obtain ⟨st1, I, _, _, hbad1⟩ := foldlM_error_inv (analyzeInstruction F)
    (fun _ => True) L.header (fun _ _ _ _ _ _ => trivial) st _ trivial hbad
  exact analyzeInstruction_ne_outOfFuel F st1 I hbad1

/-! ## Auxiliary lemmas: walks that reach no Store and no Call -/

/-- A Load of a location whose name is not a key leaves the table as it is. -/
theorem load_absent_table {n : Nat} (F : Function n) (v pointerOperand : Fin n) (s : State)
    (hload : (F.value v).kind = .loadInst pointerOperand)
    (habsent : s.varTable.find (F.value pointerOperand).name = none) :
    ∃ s1, defUseAnalysis F v s = .ok s1 ∧ s1.varTable = s.varTable := by
  by_cases hex : (F.value v).name ∈ s.exploredPoints
  · exact ⟨s, defUseAnalysis_explored F v s hex, rfl⟩
  · refine ⟨⟨s.varTable, s.exploredPoints.insert (F.value v).name⟩, ?_, rfl⟩
    simp only [defUseAnalysis, defUseAnalysisFuel, hex, if_false, hload, habsent,
      Option.isSome_none]
    rfl

/-- Walking a value that is no Store and no Call, in a function where no
operand of a BinaryOperator is one, cannot fault. -/
theorem defUseAnalysisFuel_inert_error {n : Nat} (F : Function n)
    (hbin : ∀ v operands, (F.value v).kind = .binaryOperator operands →
      ∀ op ∈ operands, (F.value op).kind.isStoreOrCall = false) :
    ∀ (fuel : Nat) (v : Fin n) (s : State) (e : Fault),
      (F.value v).kind.isStoreOrCall = false →
      defUseAnalysisFuel F fuel v s = .error e → e = .outOfFuel := by
  intro fuel
  induction fuel with
  | zero => intro v s e _ h; simp only [defUseAnalysisFuel] at h; cases h; rfl
  | succ k ih =>
    intro v s e hv h
    by_cases hex : (F.value v).name ∈ s.exploredPoints
    · rw [defUseAnalysisFuel_explored F k v s hex] at h
      cases h
    · simp only [defUseAnalysisFuel, hex, if_false] at h
      cases hkind : (F.value v).kind with
      | binaryOperator operands =>
        rw [hkind] at h
        simp only [] at h
        obtain ⟨st, op, hop, _, hbad⟩ := foldlM_error_inv
          (fun st op => defUseAnalysisFuel F k op st) (fun _ => True) operands
          (fun _ _ _ _ _ _ => trivial) _ _ trivial h
        exact ih op st e (hbin v operands hkind op hop) hbad
      | storeInst a b => rw [hkind] at hv; cases hv
      | callInst c args => rw [hkind] at hv; cases hv
      | loadInst a =>
        rw [hkind] at h
        simp only [] at h
        split at h <;> cases h
      | _ => rw [hkind] at h; cases h

/-- Walking a value that is no Store and no Call, in a function where no
operand of a BinaryOperator is one, keeps an empty table empty. -/
theorem defUseAnalysisFuel_inert_table {n : Nat} (F : Function n)
    (hbin : ∀ v operands, (F.value v).kind = .binaryOperator operands →
      ∀ op ∈ operands, (F.value op).kind.isStoreOrCall = false) :
    ∀ (fuel : Nat) (v : Fin n) (s s1 : State),
      (F.value v).kind.isStoreOrCall = false → s.varTable = [] →
      defUseAnalysisFuel F fuel v s = .ok s1 → s1.varTable = [] := by
  intro fuel
  induction fuel with
  | zero => intro v s s1 _ _ h; simp only [defUseAnalysisFuel] at h; cases h
  | succ k ih =>
    intro v s s1 hv hs h
    by_cases hex : (F.value v).name ∈ s.exploredPoints
    · rw [defUseAnalysisFuel_explored F k v s hex] at h
      cases h
      exact hs
    · simp only [defUseAnalysisFuel, hex, if_false] at h
      cases hkind : (F.value v).kind with
      | binaryOperator operands =>
        rw [hkind] at h
        simp only [] at h
        exact foldlM_ok_rel (fun st op => defUseAnalysisFuel F k op st)
          (fun a b => a.varTable = [] → b.varTable = []) (fun _ hx => hx)
          (fun _ _ _ hab hbc hx => hbc (hab hx)) operands
          (fun st op st1 hop hst hst0 => ih op st st1 (hbin v operands hkind op hop) hst0 hst)
          _ _ h hs
      | storeInst a b => rw [hkind] at hv; cases hv
      | callInst c args => rw [hkind] at hv; cases hv
      | loadInst a =>
        rw [hkind] at h
        simp only [hs, VariableTable.find] at h
        cases h
        rfl
      | _ => rw [hkind] at h; cases h; exact hs

/-- Walking a value that is no Store and no Call, in a function where no operand
of a BinaryOperator is one, succeeds and keeps an empty table empty. -/
theorem defUseAnalysis_inert {n : Nat} (F : Function n)
    (hbin : ∀ v operands, (F.value v).kind = .binaryOperator operands →
      ∀ op ∈ operands, (F.value op).kind.isStoreOrCall = false)
    (v : Fin n) (s : State) (hv : (F.value v).kind.isStoreOrCall = false)
    (hs : s.varTable = []) :
    ∃ s1, defUseAnalysis F v s = .ok s1 ∧ s1.varTable = [] := by
  cases h : defUseAnalysis F v s with
  | error e =>
    have he := defUseAnalysisFuel_inert_error F hbin (n + 1) v s e hv h
    subst he
    exact absurd h (defUseAnalysis_ne_outOfFuel F v s)
  | ok s1 => exact ⟨s1, rfl, defUseAnalysisFuel_inert_table F hbin (n + 1) v s s1 hv hs h⟩

/-! ## C1: the store-then-load scenario -/

/-- C1 (amended): when no operand of a loop header's conditional branch and no
operand of a BinaryOperator is a Store or a Call, so that no Store is ever
walked, the run from the fresh state completes with an empty table: it has no
entry for any name, whatever constant stores and loads the function holds. -/
theorem run_without_walked_store_or_call {n : Nat} (F : Function n) (LI : LoopInfo n)
    (hbin : ∀ v, ∀ op ∈ (F.value v).kind.recursedOperands,
      (F.value op).kind.isStoreOrCall = false)
    (hbranch : ∀ L ∈ LI, ∀ I ∈ L.header, ∀ op ∈ (F.value I).kind.driverOperands,
      (F.value op).kind.isStoreOrCall = false) :
    ∃ s1, run F LI State.fresh = .ok s1 ∧ s1.varTable = [] ∧
      ∀ name, s1.varTable.find name = none := by
  have hbin1 : ∀ v operands, (F.value v).kind = .binaryOperator operands →
      ∀ op ∈ operands, (F.value op).kind.isStoreOrCall = false := by
    intro v operands hk op hop
    apply hbin v op
    rw [hk]
    exact hop
  have hrun : ∃ s1, run F LI State.fresh = .ok s1 ∧ s1.varTable = [] := by
    apply foldlM_ok_of_inv (fun st (L : Loop n) => L.header.foldlM (analyzeInstruction F) st)
      (fun st => st.varTable = []) LI _ State.fresh rfl
    intro st L hL hst
    apply foldlM_ok_of_inv (analyzeInstruction F) (fun st => st.varTable = []) L.header _ st hst
    intro st1 I hI hst1
    unfold analyzeInstruction
    cases hkind : (F.value I).kind with
    | branchInst operands =>
      simp only []
      by_cases hcond : isConditional operands = true
      · rw [if_pos hcond]
        apply foldlM_ok_of_inv (fun st op => defUseAnalysis F op st)
          (fun st => st.varTable = []) operands _ st1 hst1
        intro st2 op hop hst2
        apply defUseAnalysis_inert F hbin1 op st2 _ hst2
        apply hbranch L hL I hI op
        rw [hkind]
        simp only [ValueKind.driverOperands, hcond, if_true]
        exact hop
      · rw [if_neg hcond]
        exact ⟨st1, rfl, hst1⟩
    | _ => exact ⟨st1, rfl, hst1⟩
  obtain ⟨s1, h1, h2⟩ := hrun
  refine ⟨s1, h1, h2, ?_⟩
  intro name
  rw [h2]
  rfl

/-- Instance of `run_without_walked_store_or_call` on the scenario `scenarioFn`. -/
theorem run_without_walked_store_or_call_witness :
    (∀ v, ∀ op ∈ (scenarioFn.value v).kind.recursedOperands,
      (scenarioFn.value op).kind.isStoreOrCall = false) ∧
    (∀ L ∈ scenarioLI, ∀ I ∈ L.header, ∀ op ∈ (scenarioFn.value I).kind.driverOperands,
      (scenarioFn.value op).kind.isStoreOrCall = false) ∧
    ∃ s1, run scenarioFn scenarioLI State.fresh = .ok s1 ∧ s1.varTable = [] ∧
      ∀ name, s1.varTable.find name = none :=
  ⟨by decide, by decide,
    run_without_walked_store_or_call scenarioFn scenarioLI (by decide) (by decide)⟩

/-- C1 (as stated, refuted): in `scenarioFn`, `i` is stored with a constant at
line 5 and loaded at line 8, and the header branch condition reaches the load
through two BinaryOperators; the run from the fresh state ends with no entry
for `i`. -/
theorem scenario_store_then_load_has_no_entry :
    (scenarioFn.value 2).kind = .storeInst 1 0 ∧ (scenarioFn.value 1).kind = .constantInt ∧
    (scenarioFn.value 2).debugLine = 5 ∧
    (scenarioFn.value 3).kind = .loadInst 0 ∧ (scenarioFn.value 3).debugLine = 8 ∧
    (scenarioFn.value 0).name = "i" ∧
    (scenarioFn.value 6).kind = .branchInst [5, 7, 8] ∧
    (scenarioFn.value 5).kind = .binaryOperator [4, 1] ∧
    (scenarioFn.value 4).kind = .binaryOperator [3, 1] ∧
    ∃ s1, run scenarioFn scenarioLI State.fresh = .ok s1 ∧ s1.varTable.find "i" = none :=
  ⟨rfl, rfl, rfl, rfl, rfl, rfl, rfl, rfl, rfl,
    ⟨[], ["body", "exit", "", "v", "t", "c"]⟩, rfl, rfl⟩

/-! ## C2: constant stores -/

/-- C2 (amended): a Store of an integer constant whose name is not yet in
`exploredPoints` leaves an entry keyed by the pointer operand's name, with the
Store's line, overwriting any prior entry; other entries stay as they are. -/
theorem constant_store_detection {n : Nat} (F : Function n)
    (v valueOperand pointerOperand : Fin n) (s : State)
    (hstore : (F.value v).kind = .storeInst valueOperand pointerOperand)
    (hconst : (F.value valueOperand).kind = .constantInt)
    (hnew : (F.value v).name ∉ s.exploredPoints) :
    ∃ s1, defUseAnalysis F v s = .ok s1 ∧
      s1.varTable.find (F.value pointerOperand).name
        = some ⟨(F.value pointerOperand).name, (F.value v).debugLine⟩ ∧
      (∀ k, k ≠ (F.value pointerOperand).name → s1.varTable.find k = s.varTable.find k) ∧
      s1.exploredPoints = s.exploredPoints.insert (F.value v).name := by
  refine ⟨⟨s.varTable.upsert (F.value pointerOperand).name
      ⟨(F.value pointerOperand).name, (F.value v).debugLine⟩,
      s.exploredPoints.insert (F.value v).name⟩, ?_, ?_, ?_, rfl⟩
  · simp only [defUseAnalysis, defUseAnalysisFuel, hnew, if_false, hstore, hconst]
  · exact find_upsert_self _ _ _
  · intro k hk
    exact find_upsert_ne _ _ _ _ hk

/-- Instance of `constant_store_detection`: the store of `storeFn`, walked from the
fresh state. -/
theorem constant_store_detection_witness :
    (storeFn.value 2).kind = .storeInst 1 0 ∧ (storeFn.value 1).kind = .constantInt ∧
    (storeFn.value 2).name ∉ State.fresh.exploredPoints ∧
    ∃ s1, defUseAnalysis storeFn 2 State.fresh = .ok s1 ∧
      s1.varTable.find (storeFn.value 0).name
        = some ⟨(storeFn.value 0).name, (storeFn.value 2).debugLine⟩ ∧
      (∀ k, k ≠ (storeFn.value 0).name → s1.varTable.find k = State.fresh.varTable.find k) ∧
      s1.exploredPoints = State.fresh.exploredPoints.insert (storeFn.value 2).name :=
  ⟨rfl, rfl, by decide,
    constant_store_detection storeFn 2 1 0 State.fresh rfl rfl (by decide)⟩

/-- C2 (as stated, refuted): from the fresh state only the constant of `storeFn`
is walked, then the constant store, never walked before; the store shares the
empty name with the constant, returns at the visited check, and no entry for
`i` is made. -/
theorem constant_store_missed_after_unnamed_value :
    (storeFn.value 2).kind = .storeInst 1 0 ∧ (storeFn.value 1).kind = .constantInt ∧
    (2 : Fin 3) ≠ 1 ∧
    ∃ s1 s2, defUseAnalysis storeFn 1 State.fresh = .ok s1 ∧
      defUseAnalysis storeFn 2 s1 = .ok s2 ∧
      s2.varTable.find (storeFn.value 0).name = none :=
  ⟨rfl, rfl, by decide, ⟨[], [""]⟩, ⟨[], [""]⟩, rfl, rfl, rfl⟩

/-! ## C3: load refresh -/

/-- C3: a Load whose name is not yet in `exploredPoints` and whose source
location name is a key of the table changes only the `line` of that entry, to
the Load's line; the entry's `name`, the keys and all other entries stay. -/
theorem load_refresh {n : Nat} (F : Function n) (v pointerOperand : Fin n) (s : State)
    (x : Variable)
    (hload : (F.value v).kind = .loadInst pointerOperand)
    (hnew : (F.value v).name ∉ s.exploredPoints)
    (hkey : s.varTable.find (F.value pointerOperand).name = some x) :
    ∃ s1, defUseAnalysis F v s = .ok s1 ∧
      s1.varTable.find (F.value pointerOperand).name
        = some ⟨x.name, (F.value v).debugLine⟩ ∧
      (∀ k, k ≠ (F.value pointerOperand).name → s1.varTable.find k = s.varTable.find k) ∧
      s1.varTable.keys = s.varTable.keys := by
  refine ⟨⟨s.varTable.setLine (F.value pointerOperand).name (F.value v).debugLine,
      s.exploredPoints.insert (F.value v).name⟩, ?_, ?_, ?_, ?_⟩
  · simp only [defUseAnalysis, defUseAnalysisFuel, hnew, if_false, hload, hkey,
      Option.isSome_some, if_true]
  · exact find_setLine_self _ _ _ x hkey
  · intro k hk
    exact find_setLine_ne _ _ _ _ hk
  · exact keys_setLine _ _ _

/-- Instance of `load_refresh`: the load at line 8 of `loadFn`, with `i` recorded
at line 5. -/
theorem load_refresh_witness :
    (loadFn.value 1).kind = .loadInst 0 ∧
    (loadFn.value 1).name ∉ (⟨[("i", ⟨"i", 5⟩)], []⟩ : State).exploredPoints ∧
    (⟨[("i", ⟨"i", 5⟩)], []⟩ : State).varTable.find (loadFn.value 0).name = some ⟨"i", 5⟩ ∧
    ∃ s1, defUseAnalysis loadFn 1 ⟨[("i", ⟨"i", 5⟩)], []⟩ = .ok s1 ∧
      s1.varTable.find (loadFn.value 0).name = some ⟨"i", (loadFn.value 1).debugLine⟩ ∧
      (∀ k, k ≠ (loadFn.value 0).name →
        s1.varTable.find k = (⟨[("i", ⟨"i", 5⟩)], []⟩ : State).varTable.find k) ∧
      s1.varTable.keys = (⟨[("i", ⟨"i", 5⟩)], []⟩ : State).varTable.keys :=
  ⟨rfl, by decide, rfl,
    load_refresh loadFn 1 0 ⟨[("i", ⟨"i", 5⟩)], []⟩ ⟨"i", 5⟩ rfl (by decide) rfl⟩

/-! ## C4: loads never create entries -/

/-- C4: walking any finite sequence of Loads of a location named `name`, from
a state whose table has no entry for `name`, succeeds and leaves the table
unchanged. -/
theorem loads_never_create_entries {n : Nat} (F : Function n) (name : String)
    (loads : List (Fin n)) (s : State)
    (habsent : s.varTable.find name = none)
    (hloads : ∀ l ∈ loads, ∃ p, (F.value l).kind = .loadInst p ∧ (F.value p).name = name) :
    ∃ s1, loads.foldlM (fun st l => defUseAnalysis F l st) s = .ok s1 ∧
      s1.varTable = s.varTable ∧ s1.varTable.find name = none := by
  induction loads generalizing s with
  | nil => exact ⟨s, rfl, rfl, habsent⟩
  | cons l rest ih =>
    obtain ⟨p, hkind, hp⟩ := hloads l (List.mem_cons_self l rest)
    obtain ⟨s2, hs2, htab⟩ := load_absent_table F l p s hkind (hp ▸ habsent)
    obtain ⟨s3, hs3, htab3, hnone⟩ := ih s2 (htab ▸ habsent)
      (fun l1 hl1 => hloads l1 (List.mem_cons_of_mem _ hl1))
    refine ⟨s3, ?_, htab3.trans htab, hnone⟩
    rw [foldlM_cons_ok _ l rest s s2 hs2]
    exact hs3

/-- Instance of `loads_never_create_entries`: five walks of two loads of `tmp`. -/
theorem loads_never_create_entries_witness :
    State.fresh.varTable.find "tmp" = none ∧
    (∀ l ∈ ([1, 2, 1, 2, 1] : List (Fin 3)),
      ∃ p, (tmpFn.value l).kind = .loadInst p ∧ (tmpFn.value p).name = "tmp") ∧
    ∃ s1, ([1, 2, 1, 2, 1] : List (Fin 3)).foldlM (fun st l => defUseAnalysis tmpFn l st)
        State.fresh = .ok s1 ∧
      s1.varTable = State.fresh.varTable ∧ s1.varTable.find "tmp" = none :=
  ⟨rfl, by decide,
    loads_never_create_entries tmpFn "tmp" [1, 2, 1, 2, 1] State.fresh rfl (by decide)⟩

/-! ## C5: intrinsic calls -/

/-- C5: a Call whose name is not yet in `exploredPoints`, whose callee is an
intrinsic with a name containing "llvm." and which has a first argument,
upserts the entry keyed by that argument's name with the call's line and
leaves every other entry as it is. -/
theorem intrinsic_call_detection {n : Nat} (F : Function n) (v arg0 : Fin n)
    (rest : List (Fin n)) (callee : CalledFunction) (s : State)
    (hcall : (F.value v).kind = .callInst (some callee) (arg0 :: rest))
    (hintr : callee.isIntrinsic = true)
    (hllvm : containsLlvmDot callee.name = true)
    (hnew : (F.value v).name ∉ s.exploredPoints) :
    ∃ s1, defUseAnalysis F v s = .ok s1 ∧
      s1.varTable = s.varTable.upsert (F.value arg0).name
        ⟨(F.value arg0).name, (F.value v).debugLine⟩ ∧
      s1.varTable.find (F.value arg0).name
        = some ⟨(F.value arg0).name, (F.value v).debugLine⟩ ∧
      (∀ k, k ≠ (F.value arg0).name → s1.varTable.find k = s.varTable.find k) := by
  refine ⟨⟨s.varTable.upsert (F.value arg0).name ⟨(F.value arg0).name, (F.value v).debugLine⟩,
      s.exploredPoints.insert (F.value v).name⟩, ?_, rfl, ?_, ?_⟩
  · simp only [defUseAnalysis, defUseAnalysisFuel, hnew, if_false, hcall, hintr, hllvm, if_true]
  · exact find_upsert_self _ _ _
  · intro k hk
    exact find_upsert_ne _ _ _ _ hk

/-- Instance of `intrinsic_call_detection`: `llvm.memset(%buf, ...)` at line 12,
walked from the fresh state, gives exactly the table with `buf` at line 12. -/
theorem intrinsic_call_detection_witness :
    (memsetFn.value 2).kind
      = .callInst (some ⟨"llvm.memset.p0.i64", true⟩) [0, 1, 1, 1] ∧
    (⟨"llvm.memset.p0.i64", true⟩ : CalledFunction).isIntrinsic = true ∧
    containsLlvmDot (⟨"llvm.memset.p0.i64", true⟩ : CalledFunction).name = true ∧
    (memsetFn.value 2).name ∉ State.fresh.exploredPoints ∧
    (∃ s1, defUseAnalysis memsetFn 2 State.fresh = .ok s1 ∧
      s1.varTable = State.fresh.varTable.upsert (memsetFn.value 0).name
        ⟨(memsetFn.value 0).name, (memsetFn.value 2).debugLine⟩ ∧
      s1.varTable.find (memsetFn.value 0).name
        = some ⟨(memsetFn.value 0).name, (memsetFn.value 2).debugLine⟩ ∧
      (∀ k, k ≠ (memsetFn.value 0).name →
        s1.varTable.find k = State.fresh.varTable.find k)) ∧
    defUseAnalysis memsetFn 2 State.fresh = .ok ⟨[("buf", ⟨"buf", 12⟩)], [""]⟩ :=
  ⟨rfl, rfl, by decide, by decide,
    intrinsic_call_detection memsetFn 2 0 [1, 1, 1] ⟨"llvm.memset.p0.i64", true⟩ State.fresh
      rfl rfl (by decide) (by decide),
    rfl⟩

/-! ## C6: termination -/

/-- C6: the walk terminates on every finite graph, cyclic or not: a budget
above the number of values with an unexplored name is never exhausted and
gives the outcome of `defUseAnalysis`, which itself never runs out. -/
theorem defUseAnalysis_terminates {n : Nat} (F : Function n) (v : Fin n) (s : State)
    (fuel : Nat) (hfuel : unexplored F s.exploredPoints < fuel) :
    defUseAnalysisFuel F fuel v s ≠ .error .outOfFuel ∧
    defUseAnalysisFuel F fuel v s = defUseAnalysis F v s ∧
    defUseAnalysis F v s ≠ .error .outOfFuel := by
  refine ⟨defUseAnalysisFuel_enough F fuel v s hfuel, ?_, defUseAnalysis_ne_outOfFuel F v s⟩
  unfold defUseAnalysis
  rcases Nat.le_total fuel (n + 1) with hle | hle
  · exact (defUseAnalysisFuel_stable F fuel v s hfuel (n + 1) hle).symm
  · exact defUseAnalysisFuel_stable F (n + 1) v s
      (Nat.lt_succ_of_le (unexplored_le F _)) fuel hle

/-- Instance of `defUseAnalysis_terminates` on the cyclic graph `cyclicFn`. -/
theorem defUseAnalysis_terminates_witness :
    unexplored cyclicFn State.fresh.exploredPoints < 4 ∧
    (defUseAnalysisFuel cyclicFn 4 0 State.fresh ≠ .error .outOfFuel ∧
    defUseAnalysisFuel cyclicFn 4 0 State.fresh = defUseAnalysis cyclicFn 0 State.fresh ∧
    defUseAnalysis cyclicFn 0 State.fresh ≠ .error .outOfFuel) ∧
    defUseAnalysis cyclicFn 0 State.fresh = .ok ⟨[], ["", "b", "a"]⟩ :=
  ⟨by decide, defUseAnalysis_terminates cyclicFn 0 State.fresh 4 (by decide), rfl⟩

/-! ## C7: a second walk is a no-op -/

/-- C7: walking a value a second time changes nothing: the outcome of walking
`v` twice in a row is the outcome of walking it once, and a second walk from
the state the first one returned gives that state back. -/
theorem rewalk_is_noop {n : Nat} (F : Function n) (v : Fin n) (s : State) :
    (defUseAnalysis F v s >>= defUseAnalysis F v) = defUseAnalysis F v s ∧
    ∀ s1, defUseAnalysis F v s = .ok s1 → defUseAnalysis F v s1 = .ok s1 := by
  have hsecond : ∀ s1, defUseAnalysis F v s = .ok s1 → defUseAnalysis F v s1 = .ok s1 :=
    fun s1 h => defUseAnalysis_explored F v s1 (defUseAnalysis_mono F v s s1 h).2
  refine ⟨?_, hsecond⟩
  cases h : defUseAnalysis F v s with
  | error e => rfl
  | ok s1 => exact hsecond s1 h

/-! ## C8: unresolved callee -/

/-- C8 (code): a Call with no resolved callee whose name is not yet in
`exploredPoints` makes the walk fault on the null callee. -/
theorem unresolved_callee_faults {n : Nat} (F : Function n) (v : Fin n)
    (args : List (Fin n)) (s : State)
    (hcall : (F.value v).kind = .callInst none args)
    (hnew : (F.value v).name ∉ s.exploredPoints) :
    defUseAnalysis F v s = .error .nullCallee := by
  simp only [defUseAnalysis, defUseAnalysisFuel, hnew, if_false, hcall]

/-- Instance of `unresolved_callee_faults`: the indirect call of `indirectCallFn`. -/
theorem unresolved_callee_faults_witness :
    (indirectCallFn.value 1).kind = .callInst none [] ∧
    (indirectCallFn.value 1).name ∉ State.fresh.exploredPoints ∧
    defUseAnalysis indirectCallFn 1 State.fresh = .error .nullCallee :=
  ⟨rfl, by decide, unresolved_callee_faults indirectCallFn 1 [] State.fresh rfl (by decide)⟩

/-! ## C9: intrinsic call without arguments -/

/-- C9 (code): an intrinsic Call without arguments whose name is not yet in
`exploredPoints` makes the walk fault on the access to argument 0. -/
theorem intrinsic_without_arguments_faults {n : Nat} (F : Function n) (v : Fin n)
    (callee : CalledFunction) (s : State)
    (hcall : (F.value v).kind = .callInst (some callee) [])
    (hintr : callee.isIntrinsic = true)
    (hllvm : containsLlvmDot callee.name = true)
    (hnew : (F.value v).name ∉ s.exploredPoints) :
    defUseAnalysis F v s = .error .argOutOfRange := by
  simp only [defUseAnalysis, defUseAnalysisFuel, hnew, if_false, hcall, hintr, hllvm, if_true]

/-- Instance of `intrinsic_without_arguments_faults`: the call of
`noArgIntrinsicFn`. -/
theorem intrinsic_without_arguments_faults_witness :
    (noArgIntrinsicFn.value 0).kind = .callInst (some ⟨"llvm.readcyclecounter", true⟩) [] ∧
    (⟨"llvm.readcyclecounter", true⟩ : CalledFunction).isIntrinsic = true ∧
    containsLlvmDot (⟨"llvm.readcyclecounter", true⟩ : CalledFunction).name = true ∧
    (noArgIntrinsicFn.value 0).name ∉ State.fresh.exploredPoints ∧
    defUseAnalysis noArgIntrinsicFn 0 State.fresh = .error .argOutOfRange :=
  ⟨rfl, rfl, by decide, by decide,
    intrinsic_without_arguments_faults noArgIntrinsicFn 0 ⟨"llvm.readcyclecounter", true⟩
      State.fresh rfl rfl (by decide) (by decide)⟩

/-! ## C10: what the driver walks -/

/-- C10 (amended): a run never exhausts its budget, and when it completes,
every operand of every conditional branch of every loop header (the condition
value and the two successor blocks) has its name in `exploredPoints`. -/
theorem driver_walks_branch_operands {n : Nat} (F : Function n) (LI : LoopInfo n) (s : State) :
    run F LI s ≠ .error .outOfFuel ∧
    ∀ s1, run F LI s = .ok s1 → ∀ L ∈ LI, ∀ I ∈ L.header, ∀ operands,
      (F.value I).kind = .branchInst operands → isConditional operands = true →
      ∀ op ∈ operands, (F.value op).name ∈ s1.exploredPoints := by
  refine ⟨run_ne_outOfFuel F LI s, ?_⟩
  intro s1 hrun L hL I hI operands hkind hcond op hop
  obtain ⟨a, a1, _, hhead, ha1⟩ := foldlM_ok_mem
    (fun st (L : Loop n) => L.header.foldlM (analyzeInstruction F) st)
    (fun a b => a.exploredPoints ⊆ b.exploredPoints) (fun _ _ hx => hx)
    (fun _ _ _ hab hbc _ hx => hbc (hab hx)) LI
    (fun st L st1 _ hst => header_mono F L.header st st1 hst) s s1 hrun L hL
  obtain ⟨b, b1, _, hinst, hb1⟩ := foldlM_ok_mem (analyzeInstruction F)
    (fun a b => a.exploredPoints ⊆ b.exploredPoints) (fun _ _ hx => hx)
    (fun _ _ _ hab hbc _ hx => hbc (hab hx)) L.header
    (fun st I st1 _ hst => analyzeInstruction_mono F st st1 I hst) a a1 hhead I hI
  simp only [analyzeInstruction, hkind, hcond, if_true] at hinst
  obtain ⟨c, c1, _, hwalk, hc1⟩ := foldlM_ok_mem (fun st op => defUseAnalysis F op st)
    (fun a b => a.exploredPoints ⊆ b.exploredPoints) (fun _ _ hx => hx)
    (fun _ _ _ hab hbc _ hx => hbc (hab hx)) operands
    (fun st op st1 _ hst => (defUseAnalysis_mono F op st st1 hst).1) b b1 hinst op hop
  exact ha1 (hb1 (hc1 (defUseAnalysis_mono F op c c1 hwalk).2))

/-- Instance of `driver_walks_branch_operands` on `compareFn`. -/
theorem driver_walks_branch_operands_witness :
    run compareFn compareLI State.fresh = .ok ⟨[], ["body", "exit", "cmp"]⟩ ∧
    ∀ op ∈ ([3, 5, 6] : List (Fin 7)),
      (compareFn.value op).name ∈ (⟨[], ["body", "exit", "cmp"]⟩ : State).exploredPoints :=
  ⟨rfl, (driver_walks_branch_operands compareFn compareLI State.fresh).2
    ⟨[], ["body", "exit", "cmp"]⟩ rfl ⟨[1, 3, 4]⟩ (List.mem_cons_self _ _) 4 (by decide) [3, 5, 6] rfl rfl⟩

/-- C10 (as stated, refuted): in `compareFn` the header branch is conditional on
`%cmp`, whose operands are `%a` and `%n`; after the run neither name is in
`exploredPoints`. -/
theorem condition_operands_not_walked :
    (compareFn.value 4).kind = .branchInst [3, 5, 6] ∧
    isConditional ([3, 5, 6] : List (Fin 7)) = true ∧
    (compareFn.value 3).kind = .otherInst [1, 2] ∧
    ∃ s1, run compareFn compareLI State.fresh = .ok s1 ∧
      (compareFn.value 1).name ∉ s1.exploredPoints ∧
      (compareFn.value 2).name ∉ s1.exploredPoints :=
  ⟨rfl, rfl, rfl, ⟨[], ["body", "exit", "cmp"]⟩, rfl, by decide, by decide⟩

/-! ## Auxiliary lemmas: what every walk preserves -/

theorem keys_upsert_subset (t : VariableTable) (name : String) (var : Variable) :
    t.keys ⊆ (t.upsert name var).keys := by
  induction t with
  | nil => intro x hx; cases hx
  | cons e rest ih =>
    obtain ⟨k, x⟩ := e
    by_cases hk : k = name
    · simp [VariableTable.upsert, VariableTable.keys, hk]
    · simp only [VariableTable.keys] at ih
      simp only [VariableTable.upsert, VariableTable.keys, hk, if_false, List.map_cons]
      intro y hy
      rcases List.mem_cons.1 hy with rfl | hy1
      · exact List.mem_cons_self _ _
      · exact List.mem_cons_of_mem _ (ih hy1)

theorem consistent_upsert (t : VariableTable) (name : String) (line : Int)
    (h : t.consistent) : (t.upsert name ⟨name, line⟩).consistent := by
  induction t with
  | nil =>
    intro e he
    simp only [VariableTable.upsert, List.mem_singleton] at he
    subst he
    rfl
  | cons e rest ih =>
    obtain ⟨k, x⟩ := e
    have hrest : VariableTable.consistent rest := fun e he => h e (List.mem_cons_of_mem _ he)
    by_cases hk : k = name
    · subst hk
      simp only [VariableTable.upsert, if_true]
      intro e he
      rcases List.mem_cons.1 he with rfl | he1
      · rfl
      · exact hrest e he1
    · simp only [VariableTable.upsert, hk, if_false]
      intro e he
      rcases List.mem_cons.1 he with rfl | he1
      · exact h _ (List.mem_cons_self _ _)
      · exact ih hrest e he1

theorem consistent_setLine (t : VariableTable) (name : String) (line : Int)
    (h : t.consistent) : (t.setLine name line).consistent := by
  induction t with
  | nil => intro e he; cases he
  | cons e rest ih =>
    obtain ⟨k, x⟩ := e
    have hrest : VariableTable.consistent rest := fun e he => h e (List.mem_cons_of_mem _ he)
    have hhead : x.name = k := h (k, x) (List.mem_cons_self _ _)
    by_cases hk : k = name
    · simp only [VariableTable.setLine, hk, if_true]
      intro e he
      rcases List.mem_cons.1 he with rfl | he1
      · exact hhead.trans hk
      · exact hrest e he1
    · simp only [VariableTable.setLine, hk, if_false]
      intro e he
      rcases List.mem_cons.1 he with rfl | he1
      · exact hhead
      · exact ih hrest e he1

/-- A reflexive and transitive relation on tables that every upsert of a
record under its own name and every line assignment establishes holds between
the table before and after a successful walk. -/
theorem defUseAnalysisFuel_table_rel {n : Nat} (F : Function n)
    (R : VariableTable → VariableTable → Prop)
    (hrefl : ∀ t, R t t) (htrans : ∀ a b c, R a b → R b c → R a c)
    (hupsert : ∀ t name line, R t (t.upsert name ⟨name, line⟩))
    (hset : ∀ t name line, R t (t.setLine name line)) :
    ∀ (fuel : Nat) (v : Fin n) (s s1 : State), defUseAnalysisFuel F fuel v s = .ok s1 →
      R s.varTable s1.varTable := by
  intro fuel
  induction fuel with
  | zero => intro v s s1 h; simp [defUseAnalysisFuel] at h
  | succ fuel ih =>
    intro v s s1 h
    by_cases hex : (F.value v).name ∈ s.exploredPoints
    · rw [defUseAnalysisFuel_explored F fuel v s hex] at h
      cases h
      exact hrefl _
    · simp only [defUseAnalysisFuel, hex, if_false] at h
      split at h
      · split at h <;> cases h
        · exact hupsert _ _ _
        · exact hrefl _
      · split at h <;> cases h
        · exact hset _ _ _
        · exact hrefl _
      · exact foldlM_ok_rel (fun st op => defUseAnalysisFuel F fuel op st)
          (fun a b => R a.varTable b.varTable) (fun _ => hrefl _)
          (fun _ _ _ hab hbc => htrans _ _ _ hab hbc) _
          (fun st op st1 _ hst => ih op st st1 hst)
          ⟨s.varTable, s.exploredPoints.insert (F.value v).name⟩ s1 h
      · split at h
        · cases h
        · split at h
          · split at h
            · split at h
              · cases h
              · cases h; exact hupsert _ _ _
            · cases h; exact hrefl _
          · cases h; exact hrefl _
      · cases h; exact hrefl _

/-- The relation of `defUseAnalysisFuel_table_rel` also holds across a run of
the driver. -/
theorem analyzeLoops_table_rel {n : Nat} (F : Function n)
    (R : VariableTable → VariableTable → Prop)
    (hrefl : ∀ t, R t t) (htrans : ∀ a b c, R a b → R b c → R a c)
    (hupsert : ∀ t name line, R t (t.upsert name ⟨name, line⟩))
    (hset : ∀ t name line, R t (t.setLine name line))
    (LI : LoopInfo n) (s s1 : State) (h : analyzeLoops LI F s = .ok s1) :
    R s.varTable s1.varTable := by
  have hinst : ∀ st I st1, analyzeInstruction F st I = .ok st1 → R st.varTable st1.varTable := by
    intro st I st1 hst
    unfold analyzeInstruction at hst
    split at hst
    · split at hst
      · exact foldlM_ok_rel (fun st op => defUseAnalysis F op st)
          (fun a b => R a.varTable b.varTable) (fun _ => hrefl _)
          (fun _ _ _ hab hbc => htrans _ _ _ hab hbc) _
          (fun a op b _ hab =>
            defUseAnalysisFuel_table_rel F R hrefl htrans hupsert hset (n + 1) op a b hab)
          _ _ hst
      · cases hst; exact hrefl _
    · cases hst; exact hrefl _
  exact foldlM_ok_rel (fun st (L : Loop n) => L.header.foldlM (analyzeInstruction F) st)
    (fun a b => R a.varTable b.varTable) (fun _ => hrefl _)
    (fun _ _ _ hab hbc => htrans _ _ _ hab hbc) LI
    (fun a L b _ hab => foldlM_ok_rel (analyzeInstruction F)
      (fun a b => R a.varTable b.varTable) (fun _ => hrefl _)
      (fun _ _ _ hab hbc => htrans _ _ _ hab hbc) L.header
      (fun st I st1 _ hst => hinst st I st1 hst) a b hab) s s1 h

/-- A run of the driver only adds to `exploredPoints`. -/
theorem analyzeLoops_mono {n : Nat} (F : Function n) (LI : LoopInfo n) (s s1 : State)
    (h : analyzeLoops LI F s = .ok s1) : s.exploredPoints ⊆ s1.exploredPoints :=
  foldlM_ok_rel (fun st (L : Loop n) => L.header.foldlM (analyzeInstruction F) st)
    (fun a b => a.exploredPoints ⊆ b.exploredPoints) (fun _ _ hx => hx)
    (fun _ _ _ hab hbc _ hx => hbc (hab hx)) LI
    (fun a L b _ hab => header_mono F L.header a b hab) s s1 h

/-! ## Auxiliary lemmas: walks of functions without faulting calls -/

/-- In a function without faulting calls the only error a walk can end in is
the exhaustion of its budget. -/
theorem defUseAnalysisFuel_error_of_safe {n : Nat} (F : Function n)
    (hsafe : ∀ w, (F.value w).kind.faultsWhenWalked = false) :
    ∀ (fuel : Nat) (v : Fin n) (s : State) (e : Fault),
      defUseAnalysisFuel F fuel v s = .error e → e = .outOfFuel := by
  intro fuel
  induction fuel with
  | zero => intro v s e h; simp only [defUseAnalysisFuel] at h; cases h; rfl
  | succ k ih =>
    intro v s e h
    by_cases hex : (F.value v).name ∈ s.exploredPoints
    · rw [defUseAnalysisFuel_explored F k v s hex] at h
      cases h
    · have hv := hsafe v
      simp only [defUseAnalysisFuel, hex, if_false] at h
      cases hkind : (F.value v).kind with
      | binaryOperator operands =>
        rw [hkind] at h
        simp only [] at h
        obtain ⟨st, op, _, _, hbad⟩ := foldlM_error_inv
          (fun st op => defUseAnalysisFuel F k op st) (fun _ => True) operands
          (fun _ _ _ _ _ _ => trivial) _ _ trivial h
        exact ih op st e hbad
      | storeInst a b =>
        rw [hkind] at h
        simp only [] at h
        split at h <;> cases h
      | loadInst a =>
        rw [hkind] at h
        simp only [] at h
        split at h <;> cases h
      | callInst c args =>
        rw [hkind] at h hv
        cases c with
        | none => simp [ValueKind.faultsWhenWalked] at hv
        | some callee =>
          cases args with
          | nil =>
            simp only [ValueKind.faultsWhenWalked, Bool.and_eq_false_iff] at hv
            simp only [] at h
            split at h
            · split at h
              · rcases hv with hv | hv <;> simp_all
              · cases h
            · cases h
          | cons a rest =>
            simp only [] at h
            split at h
            · split at h <;> cases h
            · cases h
      | _ => rw [hkind] at h; cases h

/-- In a function without faulting calls every walk returns a state. -/
theorem defUseAnalysis_ok_of_safe {n : Nat} (F : Function n)
    (hsafe : ∀ w, (F.value w).kind.faultsWhenWalked = false) (v : Fin n) (s : State) :
    ∃ s1, defUseAnalysis F v s = .ok s1 := by
  cases h : defUseAnalysis F v s with
  | error e =>
    have he := defUseAnalysisFuel_error_of_safe F hsafe (n + 1) v s e h
    subst he
    exact absurd h (defUseAnalysis_ne_outOfFuel F v s)
  | ok s1 => exact ⟨s1, rfl⟩

/-- In a function without faulting calls every run of the driver returns a
state. -/
theorem analyzeLoops_ok_of_safe {n : Nat} (F : Function n)
    (hsafe : ∀ w, (F.value w).kind.faultsWhenWalked = false) (LI : LoopInfo n) (s : State) :
    ∃ s1, analyzeLoops LI F s = .ok s1 := by
  have hinst : ∀ st I, ∃ st1, analyzeInstruction F st I = .ok st1 ∧ True := by
    intro st I
    unfold analyzeInstruction
    split
    · split
      · exact foldlM_ok_of_inv (fun st op => defUseAnalysis F op st) (fun _ => True) _
          (fun a op _ _ => (defUseAnalysis_ok_of_safe F hsafe op a).imp fun _ h => ⟨h, trivial⟩)
          st trivial
      · exact ⟨st, rfl, trivial⟩
    · exact ⟨st, rfl, trivial⟩
  obtain ⟨s1, h, _⟩ := foldlM_ok_of_inv
    (fun st (L : Loop n) => L.header.foldlM (analyzeInstruction F) st) (fun _ => True) LI
    (fun a L _ _ => foldlM_ok_of_inv (analyzeInstruction F) (fun _ => True) L.header
      (fun st I _ _ => hinst st I) a trivial) s trivial
  exact ⟨s1, h⟩

/-! ## C11: transitive influence -/

/-- C11: when the table already holds an entry for a name (for `i`, set by an
earlier constant store), walking any value, in particular a branch condition
that depends on `c = a + b` with `b` loaded from `i`, never exhausts the
budget, keeps an entry for that name in every table it returns, and does return
a table when the function holds no faulting call. -/
theorem transitive_influence_keeps_entry {n : Nat} (F : Function n) (cond : Fin n)
    (s : State) (name : String) (hentry : name ∈ s.varTable.keys) :
    (∀ e, defUseAnalysis F cond s = .error e → e = .nullCallee ∨ e = .argOutOfRange) ∧
    (∀ s1, defUseAnalysis F cond s = .ok s1 → name ∈ s1.varTable.keys) ∧
    ((∀ w, (F.value w).kind.faultsWhenWalked = false) →
      ∃ s1, defUseAnalysis F cond s = .ok s1 ∧ name ∈ s1.varTable.keys) := by
  have hkeep : ∀ s1, defUseAnalysis F cond s = .ok s1 → name ∈ s1.varTable.keys :=
    fun s1 h => defUseAnalysisFuel_table_rel F (fun a b => a.keys ⊆ b.keys)
      (fun _ _ hx => hx) (fun _ _ _ hab hbc _ hx => hbc (hab hx))
      (fun t k line => keys_upsert_subset t k ⟨k, line⟩)
      (fun t k line => by
        show t.keys ⊆ (t.setLine k line).keys
        rw [keys_setLine]
        exact fun _ hx => hx)
      (n + 1) cond s s1 h hentry
  refine ⟨?_, hkeep, ?_⟩
  · intro e he
    cases e with
    | nullCallee => exact Or.inl rfl
    | argOutOfRange => exact Or.inr rfl
    | outOfFuel => exact absurd he (defUseAnalysis_ne_outOfFuel F cond s)
  · intro hsafe
    obtain ⟨s1, h⟩ := defUseAnalysis_ok_of_safe F hsafe cond s
    exact ⟨s1, h, hkeep s1 h⟩

/-- Instance of `transitive_influence_keeps_entry`: `i` is recorded at line 5,
the condition of `transitiveFn` is walked, and the table returned holds `i`,
at the line of the load. -/
theorem transitive_influence_keeps_entry_witness :
    "i" ∈ (⟨[("i", ⟨"i", 5⟩)], []⟩ : State).varTable.keys ∧
    (transitiveFn.value 3).kind = .binaryOperator [1, 2] ∧
    (transitiveFn.value 2).kind = .loadInst 0 ∧ (transitiveFn.value 0).name = "i" ∧
    (∀ w, (transitiveFn.value w).kind.faultsWhenWalked = false) ∧
    defUseAnalysis transitiveFn 4 ⟨[("i", ⟨"i", 5⟩)], []⟩
      = .ok ⟨[("i", ⟨"i", 8⟩)], ["", "b", "a", "c", "cond"]⟩ ∧
    ∃ s1, defUseAnalysis transitiveFn 4 ⟨[("i", ⟨"i", 5⟩)], []⟩ = .ok s1 ∧
      "i" ∈ s1.varTable.keys :=
  ⟨by decide, rfl, rfl, rfl, by decide, rfl,
    (transitive_influence_keeps_entry transitiveFn 4 ⟨[("i", ⟨"i", 5⟩)], []⟩ "i"
      (by decide)).2.2 (by decide)⟩

/-! ## C12: headers without a conditional branch -/

/-- C12: when no instruction of any loop header is a conditional branch, the
driver returns the state it was given: `exploredPoints` and the table are
exactly as they were, and empty when the run starts fresh. -/
theorem headers_without_conditional_branch {n : Nat} (F : Function n) (LI : LoopInfo n)
    (s : State)
    (hnone : ∀ L ∈ LI, ∀ I ∈ L.header, (F.value I).kind.isConditionalBranch = false) :
    analyzeLoops LI F s = .ok s ∧ run F LI State.fresh = .ok ⟨[], []⟩ := by
  have hgen : ∀ st, analyzeLoops LI F st = .ok st := by
    intro st
    obtain ⟨s1, h, hs1⟩ := foldlM_ok_of_inv
      (fun a (L : Loop n) => L.header.foldlM (analyzeInstruction F) a) (fun a => a = st) LI
      (fun a L hL ha => foldlM_ok_of_inv (analyzeInstruction F) (fun b => b = st) L.header
        (fun b I hI hb => by
          refine ⟨b, ?_, hb⟩
          have hI1 := hnone L hL I hI
          unfold analyzeInstruction
          cases hkind : (F.value I).kind with
          | branchInst operands =>
            rw [hkind] at hI1
            simp only [ValueKind.isConditionalBranch] at hI1
            simp only [hI1]
            rfl
          | _ => rfl) a ha) st rfl
    rw [hs1] at h
    exact h
  exact ⟨hgen s, hgen State.fresh⟩

/-- Instance of `headers_without_conditional_branch` on `unconditionalFn`. -/
theorem headers_without_conditional_branch_witness :
    (∀ L ∈ unconditionalLI, ∀ I ∈ L.header,
      (unconditionalFn.value I).kind.isConditionalBranch = false) ∧
    (analyzeLoops unconditionalLI unconditionalFn ⟨[("i", ⟨"i", 5⟩)], ["x"]⟩
      = .ok ⟨[("i", ⟨"i", 5⟩)], ["x"]⟩ ∧
    run unconditionalFn unconditionalLI State.fresh = .ok ⟨[], []⟩) :=
  ⟨by decide, headers_without_conditional_branch unconditionalFn unconditionalLI
    ⟨[("i", ⟨"i", 5⟩)], ["x"]⟩ (by decide)⟩

/-! ## Auxiliary lemmas: dead ends -/

/-- A walk of a dead end returns the state with the value's name inserted in
`exploredPoints` and nothing else changed. -/
theorem defUseAnalysis_of_isDeadEnd {n : Nat} (F : Function n) (v : Fin n) (s : State)
    (hdead : isDeadEnd F v = true) :
    defUseAnalysis F v s = .ok ⟨s.varTable, s.exploredPoints.insert (F.value v).name⟩ := by
  by_cases hex : (F.value v).name ∈ s.exploredPoints
  · rw [defUseAnalysis_explored F v s hex, List.insert_of_mem hex]
  · unfold isDeadEnd at hdead
    simp only [defUseAnalysis, defUseAnalysisFuel, hex, if_false]
    cases hkind : (F.value v).kind with
    | storeInst a b =>
      rw [hkind] at hdead
      simp only [] at hdead ⊢
      cases hval : (F.value a).kind
      all_goals rw [hval] at hdead
      all_goals cases hdead
    | loadInst a => rw [hkind] at hdead; cases hdead
    | binaryOperator ops => rw [hkind] at hdead; cases hdead
    | callInst c args =>
      rw [hkind] at hdead
      cases c with
      | none => cases hdead
      | some callee =>
        simp only [Bool.not_eq_true'] at hdead
        simp only [hdead]
        rfl
    | _ => rfl

/-! ## C13: recursion through a BinaryOperator -/

/-- C13: walking a BinaryOperator whose name is not yet in `exploredPoints` is
inserting its name and then walking its operands in operand order, each from
the state the previous one returned; after a successful walk every operand's
name is in `exploredPoints`. -/
theorem binaryOperator_recursion {n : Nat} (F : Function n) (v : Fin n)
    (operands : List (Fin n)) (s : State)
    (hkind : (F.value v).kind = .binaryOperator operands)
    (hnew : (F.value v).name ∉ s.exploredPoints) :
    defUseAnalysis F v s
      = operands.foldlM (fun st op => defUseAnalysis F op st)
          ⟨s.varTable, s.exploredPoints.insert (F.value v).name⟩ ∧
    ∀ s1, defUseAnalysis F v s = .ok s1 →
      ∀ op ∈ operands, (F.value op).name ∈ s1.exploredPoints := by
  have heq : defUseAnalysis F v s
      = operands.foldlM (fun st op => defUseAnalysis F op st)
          ⟨s.varTable, s.exploredPoints.insert (F.value v).name⟩ := by
    have hdec := unexplored_insert_lt F s.exploredPoints v hnew
    have hle := unexplored_le F s.exploredPoints
    simp only [defUseAnalysis, defUseAnalysisFuel, hnew, if_false, hkind]
    apply foldlM_congr_inv _ _ (fun st => unexplored F st.exploredPoints < n)
    · intro st op _ hst
      exact (defUseAnalysisFuel_stable F n op st hst (n + 1) (Nat.le_succ n)).symm
    · intro st op st1 _ hst hok
      exact lt_of_le_of_lt
        (unexplored_mono F _ _ (defUseAnalysisFuel_mono F n op st st1 hok).1) hst
    · show unexplored F (s.exploredPoints.insert (F.value v).name) < n
      omega
  refine ⟨heq, ?_⟩
  intro s1 hs1 op hop
  rw [heq] at hs1
  obtain ⟨a, a1, _, hwalk, ha1⟩ := foldlM_ok_mem (fun st op => defUseAnalysis F op st)
    (fun a b => a.exploredPoints ⊆ b.exploredPoints) (fun _ _ hx => hx)
    (fun _ _ _ hab hbc _ hx => hbc (hab hx)) operands
    (fun st op st1 _ hst => (defUseAnalysis_mono F op st st1 hst).1) _ s1 hs1 op hop
  exact ha1 (defUseAnalysis_mono F op a a1 hwalk).2

/-- Instance of `binaryOperator_recursion`: the expression `c = a + b` of
`transitiveFn`, walked with `i` recorded at line 5. -/
theorem binaryOperator_recursion_witness :
    (transitiveFn.value 3).kind = .binaryOperator [1, 2] ∧
    (transitiveFn.value 3).name ∉ (⟨[("i", ⟨"i", 5⟩)], []⟩ : State).exploredPoints ∧
    (defUseAnalysis transitiveFn 3 ⟨[("i", ⟨"i", 5⟩)], []⟩
      = ([1, 2] : List (Fin 6)).foldlM (fun st op => defUseAnalysis transitiveFn op st)
          ⟨[("i", ⟨"i", 5⟩)], ["c"]⟩ ∧
    ∀ s1, defUseAnalysis transitiveFn 3 ⟨[("i", ⟨"i", 5⟩)], []⟩ = .ok s1 →
      ∀ op ∈ ([1, 2] : List (Fin 6)), (transitiveFn.value op).name ∈ s1.exploredPoints) ∧
    defUseAnalysis transitiveFn 3 ⟨[("i", ⟨"i", 5⟩)], []⟩
      = .ok ⟨[("i", ⟨"i", 8⟩)], ["b", "a", "c"]⟩ :=
  ⟨rfl, by decide,
    binaryOperator_recursion transitiveFn 3 [1, 2] ⟨[("i", ⟨"i", 5⟩)], []⟩ rfl (by decide),
    rfl⟩

/-! ## C14: traversal dead ends -/

/-- C14: a walk of a dead end (non-instruction, instruction outside Store,
Load, BinaryOperator and Call, Store of a non-constant, Call to a resolved
non-intrinsic callee) returns a state with the table unchanged and with
`exploredPoints` grown by at most the value's own name. -/
theorem dead_end_walk {n : Nat} (F : Function n) (v : Fin n) (s : State)
    (hdead : isDeadEnd F v = true) :
    ∃ s1, defUseAnalysis F v s = .ok s1 ∧ s1.varTable = s.varTable ∧
      s1.exploredPoints = s.exploredPoints.insert (F.value v).name ∧
      ∀ x ∈ s1.exploredPoints, x ∈ s.exploredPoints ∨ x = (F.value v).name := by
  refine ⟨⟨s.varTable, s.exploredPoints.insert (F.value v).name⟩,
    defUseAnalysis_of_isDeadEnd F v s hdead, rfl, rfl, ?_⟩
  intro x hx
  rcases List.mem_insert_iff.1 hx with h | h
  · exact Or.inr h
  · exact Or.inl h

/-- Instance of `dead_end_walk`: the store of a non-constant in `deadEndFn`,
with the other dead ends of that function evaluated alongside. -/
theorem dead_end_walk_witness :
    isDeadEnd deadEndFn 3 = true ∧
    (∃ s1, defUseAnalysis deadEndFn 3 ⟨[("i", ⟨"i", 5⟩)], ["cmp"]⟩ = .ok s1 ∧
      s1.varTable = (⟨[("i", ⟨"i", 5⟩)], ["cmp"]⟩ : State).varTable ∧
      s1.exploredPoints
        = (⟨[("i", ⟨"i", 5⟩)], ["cmp"]⟩ : State).exploredPoints.insert (deadEndFn.value 3).name ∧
      ∀ x ∈ s1.exploredPoints,
        x ∈ (⟨[("i", ⟨"i", 5⟩)], ["cmp"]⟩ : State).exploredPoints ∨ x = (deadEndFn.value 3).name) ∧
    (∀ v ∈ ([1, 2, 4, 5, 6] : List (Fin 7)), isDeadEnd deadEndFn v = true) ∧
    defUseAnalysis deadEndFn 4 ⟨[("i", ⟨"i", 5⟩)], ["cmp"]⟩
      = .ok ⟨[("i", ⟨"i", 5⟩)], ["r", "cmp"]⟩ ∧
    defUseAnalysis deadEndFn 2 ⟨[("i", ⟨"i", 5⟩)], ["cmp"]⟩
      = .ok ⟨[("i", ⟨"i", 5⟩)], ["cmp"]⟩ :=
  ⟨rfl, dead_end_walk deadEndFn 3 ⟨[("i", ⟨"i", 5⟩)], ["cmp"]⟩ rfl, by decide, rfl, rfl⟩

/-! ## C15: the visited set is keyed by name -/

/-- C15: after a successful walk of a value, a walk of any value with the same
name, whatever its kind, returns the state unchanged. -/
theorem same_name_walk_is_noop {n : Nat} (F : Function n) (v w : Fin n) (s s1 : State)
    (hname : (F.value w).name = (F.value v).name)
    (hfirst : defUseAnalysis F v s = .ok s1) :
    defUseAnalysis F w s1 = .ok s1 :=
  defUseAnalysis_explored F w s1 (hname ▸ (defUseAnalysis_mono F v s s1 hfirst).2)

/-- Instance of `same_name_walk_is_noop`: in `conflateFn` the unnamed constant
is walked with `i` recorded at line 1; then the unnamed constant store, load,
BinaryOperator and intrinsic call all return the state as it is. -/
theorem same_name_walk_is_noop_witness :
    (conflateFn.value 2).name = (conflateFn.value 1).name ∧ (2 : Fin 6) ≠ 1 ∧
    defUseAnalysis conflateFn 1 ⟨[("i", ⟨"i", 1⟩)], []⟩ = .ok ⟨[("i", ⟨"i", 1⟩)], [""]⟩ ∧
    defUseAnalysis conflateFn 2 ⟨[("i", ⟨"i", 1⟩)], [""]⟩ = .ok ⟨[("i", ⟨"i", 1⟩)], [""]⟩ ∧
    (∀ w ∈ ([3, 4, 5] : List (Fin 6)),
      defUseAnalysis conflateFn w ⟨[("i", ⟨"i", 1⟩)], [""]⟩
        = .ok ⟨[("i", ⟨"i", 1⟩)], [""]⟩) ∧
    (conflateFn.value 2).kind = .storeInst 1 0 ∧ (conflateFn.value 1).kind = .constantInt ∧
    (conflateFn.value 3).kind = .loadInst 0 ∧
    (conflateFn.value 4).kind = .binaryOperator [3, 1] ∧
    (conflateFn.value 5).kind
      = .callInst (some ⟨"llvm.memset.p0.i64", true⟩) [0, 1, 1, 1] :=
  ⟨rfl, by decide, rfl,
    same_name_walk_is_noop conflateFn 1 2 ⟨[("i", ⟨"i", 1⟩)], []⟩ ⟨[("i", ⟨"i", 1⟩)], [""]⟩
      rfl rfl,
    by decide, rfl, rfl, rfl, rfl, rfl⟩

/-! ## C16: the comparison gap -/

/-- C16: when every operand of every loop-header conditional branch (the
condition, a comparison, and the two successor blocks) is of a kind the walk
does not dispatch on, a run completes with the table it started with, so with
an empty table from the fresh state, whatever the rest of the function is. -/
theorem comparison_gap {n : Nat} (F : Function n) (LI : LoopInfo n) (s : State)
    (hcmp : ∀ L ∈ LI, ∀ I ∈ L.header, ∀ op ∈ (F.value I).kind.driverOperands,
      (F.value op).kind.isDispatched = false) :
    (∃ s1, run F LI s = .ok s1 ∧ s1.varTable = s.varTable) ∧
    (∃ s1, run F LI State.fresh = .ok s1 ∧ s1.varTable = []) := by
  have hdead : ∀ op, (F.value op).kind.isDispatched = false → isDeadEnd F op = true := by
    intro op hop
    unfold isDeadEnd
    cases hkind : (F.value op).kind <;> rw [hkind] at hop <;> first | rfl | cases hop
  have hgen : ∀ st, ∃ s1, run F LI st = .ok s1 ∧ s1.varTable = st.varTable := by
    intro st
    apply foldlM_ok_of_inv (fun a (L : Loop n) => L.header.foldlM (analyzeInstruction F) a)
      (fun a => a.varTable = st.varTable) LI _ st rfl
    intro a L hL ha
    apply foldlM_ok_of_inv (analyzeInstruction F) (fun b => b.varTable = st.varTable)
      L.header _ a ha
    intro b I hI hb
    have hops := hcmp L hL I hI
    unfold analyzeInstruction
    cases hkind : (F.value I).kind with
    | branchInst operands =>
      rw [hkind] at hops
      simp only []
      by_cases hcond : isConditional operands = true
      · rw [if_pos hcond]
        simp only [ValueKind.driverOperands, hcond, if_true] at hops
        apply foldlM_ok_of_inv (fun st op => defUseAnalysis F op st)
          (fun c => c.varTable = st.varTable) operands _ b hb
        intro c op hop hc
        exact ⟨_, defUseAnalysis_of_isDeadEnd F op c (hdead op (hops op hop)), hc⟩
      · rw [if_neg hcond]
        exact ⟨b, rfl, hb⟩
    | _ => exact ⟨b, rfl, hb⟩
  exact ⟨hgen s, hgen State.fresh⟩

/-- Instance of `comparison_gap` on `gapFn`: the table stays empty although the
comparison's operands are a load of `i` and an intrinsic call on `i`. -/
theorem comparison_gap_witness :
    (∀ L ∈ gapLI, ∀ I ∈ L.header, ∀ op ∈ (gapFn.value I).kind.driverOperands,
      (gapFn.value op).kind.isDispatched = false) ∧
    ((∃ s1, run gapFn gapLI State.fresh = .ok s1 ∧ s1.varTable = State.fresh.varTable) ∧
    (∃ s1, run gapFn gapLI State.fresh = .ok s1 ∧ s1.varTable = [])) ∧
    run gapFn gapLI State.fresh = .ok ⟨[], ["body", "exit", "cmp"]⟩ :=
  ⟨by decide, comparison_gap gapFn gapLI State.fresh (by decide), rfl⟩

/-! ## C17: the visited set only grows -/

/-- C17: every state a walk returns has an `exploredPoints` that includes the
one it started from and the walked value's name; every state a run of the
driver returns has an `exploredPoints` that includes the one it started from;
and in a function without faulting calls both do return a state. -/
theorem exploredPoints_only_grows {n : Nat} (F : Function n) (v : Fin n) (LI : LoopInfo n)
    (s : State) :
    (∀ s1, defUseAnalysis F v s = .ok s1 →
      s.exploredPoints ⊆ s1.exploredPoints ∧ (F.value v).name ∈ s1.exploredPoints) ∧
    (∀ s1, analyzeLoops LI F s = .ok s1 → s.exploredPoints ⊆ s1.exploredPoints) ∧
    ((∀ w, (F.value w).kind.faultsWhenWalked = false) →
      (∃ s1, defUseAnalysis F v s = .ok s1) ∧ ∃ s1, analyzeLoops LI F s = .ok s1) :=
  ⟨fun s1 h => defUseAnalysis_mono F v s s1 h,
    fun s1 h => analyzeLoops_mono F LI s s1 h,
    fun hsafe => ⟨defUseAnalysis_ok_of_safe F hsafe v s, analyzeLoops_ok_of_safe F hsafe LI s⟩⟩

/-- Instance of `exploredPoints_only_grows` on the cyclic graph `cyclicFn`,
started with a name already explored. -/
theorem exploredPoints_only_grows_witness :
    defUseAnalysis cyclicFn 0 ⟨[], ["z"]⟩ = .ok ⟨[], ["", "b", "a", "z"]⟩ ∧
    (⟨[], ["z"]⟩ : State).exploredPoints ⊆ (⟨[], ["", "b", "a", "z"]⟩ : State).exploredPoints ∧
    (cyclicFn.value 0).name ∈ (⟨[], ["", "b", "a", "z"]⟩ : State).exploredPoints :=
  ⟨rfl, (exploredPoints_only_grows cyclicFn 0 [] ⟨[], ["z"]⟩).1 ⟨[], ["", "b", "a", "z"]⟩ rfl⟩

/-! ## C18: keys and names agree -/

/-- C18: when every entry of the table holds a `Variable` whose `name` is its
key, so does every entry of the table of any state a walk or a run of the
driver returns; every table a run from the fresh state returns is of that
sort. -/
theorem key_name_consistency {n : Nat} (F : Function n) (s : State)
    (hcons : s.varTable.consistent) :
    (∀ v s1, defUseAnalysis F v s = .ok s1 → s1.varTable.consistent) ∧
    (∀ LI s1, analyzeLoops LI F s = .ok s1 → s1.varTable.consistent) ∧
    (∀ LI s1, run F LI State.fresh = .ok s1 → s1.varTable.consistent) := by
  have hfresh : State.fresh.varTable.consistent := fun e he => by cases he
  refine ⟨fun v s1 h => ?_, fun LI s1 h => ?_, fun LI s1 h => ?_⟩
  · exact defUseAnalysisFuel_table_rel F (fun a b => a.consistent → b.consistent)
      (fun _ hx => hx) (fun _ _ _ hab hbc hx => hbc (hab hx))
      (fun t k line ht => consistent_upsert t k line ht)
      (fun t k line ht => consistent_setLine t k line ht) (n + 1) v s s1 h hcons
  · exact analyzeLoops_table_rel F (fun a b => a.consistent → b.consistent)
      (fun _ hx => hx) (fun _ _ _ hab hbc hx => hbc (hab hx))
      (fun t k line ht => consistent_upsert t k line ht)
      (fun t k line ht => consistent_setLine t k line ht) LI s s1 h hcons
  · exact analyzeLoops_table_rel F (fun a b => a.consistent → b.consistent)
      (fun _ hx => hx) (fun _ _ _ hab hbc hx => hbc (hab hx))
      (fun t k line ht => consistent_upsert t k line ht)
      (fun t k line ht => consistent_setLine t k line ht) LI State.fresh s1 h hfresh

/-- Instance of `key_name_consistency`: a run on `orderFn`, call before load,
from a table that records `j`. -/
theorem key_name_consistency_witness :
    (⟨[("j", ⟨"j", 2⟩)], []⟩ : State).varTable.consistent ∧
    run (orderFn [2, 1]) orderLI ⟨[("j", ⟨"j", 2⟩)], []⟩
      = .ok ⟨[("j", ⟨"j", 2⟩), ("i", ⟨"i", 8⟩)], ["bb", "l", "k", "x"]⟩ ∧
    (⟨[("j", ⟨"j", 2⟩), ("i", ⟨"i", 8⟩)], ["bb", "l", "k", "x"]⟩ : State).varTable.consistent :=
  have hcons : (⟨[("j", ⟨"j", 2⟩)], []⟩ : State).varTable.consistent := by
    intro e he
    simp only [List.mem_singleton] at he
    subst he
    rfl
  ⟨hcons, rfl, (key_name_consistency (orderFn [2, 1]) ⟨[("j", ⟨"j", 2⟩)], []⟩ hcons).2.1
    orderLI _ rfl⟩

/-! ## C19: operand order matters -/

/-- C19: for the BinaryOperator of `orderFn`, over a load of `i` at line 8 and
an intrinsic call on `i` at line 6, walked from the fresh state, the table
records `i` at the line of the call when the load comes first and at the line
of the load when the call comes first: swapping the operands changes the
table. -/
theorem operand_order_matters :
    ((orderFn [1, 2]).value 3).kind = .binaryOperator [1, 2] ∧
    ((orderFn [2, 1]).value 3).kind = .binaryOperator [2, 1] ∧
    ((orderFn [1, 2]).value 1).kind = .loadInst 0 ∧
    ((orderFn [1, 2]).value 2).kind
      = .callInst (some ⟨"llvm.objectsize.i64.p0", true⟩) [0, 4, 4, 4] ∧
    ∃ s1 s2, defUseAnalysis (orderFn [1, 2]) 3 State.fresh = .ok s1 ∧
      defUseAnalysis (orderFn [2, 1]) 3 State.fresh = .ok s2 ∧
      s1.varTable = [("i", ⟨"i", 6⟩)] ∧ s2.varTable = [("i", ⟨"i", 8⟩)] ∧
      s1.varTable ≠ s2.varTable :=
  ⟨rfl, rfl, rfl, rfl, ⟨[("i", ⟨"i", 6⟩)], ["k", "l", "x"]⟩, ⟨[("i", ⟨"i", 8⟩)], ["l", "k", "x"]⟩,
    rfl, rfl, rfl, rfl, by decide⟩

end SeminalInputFeaturesAnalysis
